import Mathlib

/-!
Verification of the stoppers_modelling repository (text string recognition
results combination).  The source is Python; numbers are modelled as exact
rationals (`ℚ`), Python dicts as association lists with unique keys, and
Python exceptions as `Option` results where a claim is about errors.
-/

set_option linter.unusedVariables false

/-! ## Cells (src/combination.py, class Cell)

A `Cell` is the dict `self.vars : {<class label> : <membership estimation>}`;
labels are Python strings.  We model the dict as an association list in
insertion order with unique keys (the invariant of every Python dict). -/

abbrev Cell := List (String × ℚ)

/-- Keys of a cell dict, in insertion order. -/
def cellKeys (c : Cell) : List String := c.map Prod.fst

/-- Dict lookup with Python's `dict[k]` semantics, defaulting to 0 for an
absent key (the source only reads present keys on the claimed domains). -/
def getW : Cell → String → ℚ
  | [], _ => 0
  | kv :: rest, k => if kv.1 = k then kv.2 else getW rest k

/-- `k in d.keys()`. -/
def hasKey (c : Cell) (k : String) : Bool := decide (k ∈ cellKeys c)

/-- Python dict assignment `d[k] = v`: replaces the value of a present key in
place, appends a fresh key at the end. -/
def dictSet (c : Cell) (k : String) (v : ℚ) : Cell :=
  if hasKey c k then c.map (fun kv => if kv.1 = k then (k, v) else kv)
  else c ++ [(k, v)]

/-- Sum of membership estimations (`s` in `Cell.normalize`). -/
def cellSum (c : Cell) : ℚ := (c.map Prod.snd).sum

/-- Well-formedness from the data model: dict keys are unique and membership
estimations are non-negative weights (spec §3). -/
def CellWF (c : Cell) : Prop := (cellKeys c).Nodup ∧ ∀ kv ∈ c, 0 ≤ kv.2

instance (c : Cell) : Decidable (CellWF c) := by unfold CellWF; infer_instance

/-- The division loop of `Cell.normalize`, as a value (total; the exception
case is carried by `Cell.normalize` below). -/
def normalizeT (c : Cell) : Cell := c.map (fun kv => (kv.1, kv.2 / cellSum c))

/-- `Cell.normalize` with Python error semantics: the loop
`for k in self.vars.keys(): self.vars[k] /= s` raises `ZeroDivisionError`
iff it performs at least one division by `s = 0`, i.e. iff the dict is
non-empty with weight sum 0; on the empty dict the loop body never runs and
the cell is returned unchanged. -/
def Cell.normalize (c : Cell) : Option Cell :=
  if c ≠ [] ∧ cellSum c = 0 then none else some (normalizeT c)

/-! ### Basic dict lemmas -/

theorem getW_eq_zero_of_not_mem {c : Cell} {k : String}
    (h : k ∉ cellKeys c) : getW c k = 0 := by
  induction c with
  | nil => rfl
  | cons kv rest ih =>
    simp only [cellKeys, List.map_cons, List.mem_cons, not_or] at h
    simp only [getW]
    rw [if_neg (fun hh => h.1 hh.symm)]
    exact ih h.2

/-- Division distributes over a mapped list sum. -/
theorem sum_map_div (l : List ℚ) (s : ℚ) :
    (l.map (fun x => x / s)).sum = l.sum / s := by
  induction l with
  | nil => simp
  | cons x rest ih => simp [ih, add_div]

/-- `getW` through a value-mapping that keeps keys. -/
theorem getW_mapVal (c : Cell) (f : ℚ → ℚ) (hf : f 0 = 0) (k : String) :
    getW (c.map (fun kv => (kv.1, f kv.2))) k = f (getW c k) := by
  induction c with
  | nil => simp [getW, hf]
  | cons kv rest ih =>
    simp only [List.map_cons, getW]
    by_cases h : kv.1 = k
    · rw [if_pos h, if_pos h]
    · rw [if_neg h, if_neg h]
      exact ih

theorem getW_nonneg {c : Cell} (hc : ∀ kv ∈ c, 0 ≤ kv.2) (k : String) :
    0 ≤ getW c k := by
  induction c with
  | nil => simp [getW]
  | cons kv rest ih =>
    simp only [getW]
    by_cases h : kv.1 = k
    · rw [if_pos h]; exact hc kv (List.mem_cons_self _ _)
    · rw [if_neg h]
      exact ih (fun x hx => hc x (List.mem_cons_of_mem _ hx))

theorem getW_normalizeT (c : Cell) (k : String) :
    getW (normalizeT c) k = getW c k / cellSum c := by
  unfold normalizeT
  exact getW_mapVal c (fun v => v / cellSum c) (zero_div _) k

theorem cellKeys_normalizeT (c : Cell) : cellKeys (normalizeT c) = cellKeys c := by
  simp [cellKeys, normalizeT]

theorem cellSum_cons (kv : String × ℚ) (rest : Cell) :
    cellSum (kv :: rest) = kv.2 + cellSum rest := by
  simp [cellSum]

theorem cellSum_normalizeT_eq (c : Cell) :
    cellSum (normalizeT c) = cellSum c / cellSum c := by
  unfold cellSum normalizeT
  rw [List.map_map]
  have : (Prod.snd ∘ fun kv : String × ℚ => (kv.1, kv.2 / cellSum c)) =
      (fun x => x / cellSum c) ∘ Prod.snd := rfl
  rw [this, ← List.map_map]
  exact sum_map_div _ _

theorem cellSum_normalizeT {c : Cell} (h : cellSum c ≠ 0) :
    cellSum (normalizeT c) = 1 := by
  rw [cellSum_normalizeT_eq, div_self h]

/-- Membership estimations of a normalized cell stay non-negative when the
original sum is positive. -/
theorem normalizeT_nonneg {c : Cell} (hc : ∀ kv ∈ c, 0 ≤ kv.2)
    (hs : 0 < cellSum c) : ∀ kv ∈ normalizeT c, 0 ≤ kv.2 := by
  intro kv hkv
  simp only [normalizeT, List.mem_map] at hkv
  obtain ⟨kv', hkv', rfl⟩ := hkv
  exact div_nonneg (hc kv' hkv') hs.le

/-! ### Claim C5 -/

/-- Counterexample to C5: the empty cell has weight sum 0, yet
`Cell.normalize` does not signal any error — the division loop never runs
and the (unnormalized, sum-0) empty cell is returned silently. -/
theorem claim5_counterexample :
    cellSum ([] : Cell) = 0 ∧ Cell.normalize ([] : Cell) = some [] := by
  constructor
  · rfl
  · rfl

/-- C5 (amended): `Cell.normalize` signals an error iff the label map is
non-empty and its weights sum to zero; on the empty map it silently returns
the empty cell unchanged; and for every cell with positive weight sum it
succeeds and the resulting weights sum to 1. -/
theorem claim5_normalize (c : Cell) :
    (c ≠ [] → cellSum c = 0 → Cell.normalize c = none) ∧
    (Cell.normalize ([] : Cell) = some []) ∧
    (0 < cellSum c → ∃ c', Cell.normalize c = some c' ∧ cellSum c' = 1) := by
  refine ⟨fun hne hz => ?_, rfl, fun hpos => ?_⟩
  · unfold Cell.normalize
    rw [if_pos ⟨hne, hz⟩]
  · refine ⟨normalizeT c, ?_, cellSum_normalizeT hpos.ne'⟩
    unfold Cell.normalize
    rw [if_neg]
    rintro ⟨-, hz⟩
    exact hpos.ne' hz

/-- Witness for C5 (amended) at the concrete cell `{"A": 2, "B": 2}`. -/
theorem claim5_witness :
    (0 : ℚ) < cellSum [("A", 2), ("B", 2)] ∧
    ∃ c', Cell.normalize [("A", 2), ("B", 2)] = some c' ∧ cellSum c' = 1 := by
  refine ⟨by norm_num [cellSum], (claim5_normalize [("A", 2), ("B", 2)]).2.2 (by norm_num [cellSum])⟩

/-! ## cell_dist (src/combination.py lines 66-83)

`cell_dist(a, b)` normalizes both cells, then accumulates, over the keys of
`na`, `|na[k] - nb[k]|` when `k` is also a key of `nb` and `na[k]` otherwise,
then over the keys of `nb` the weights of keys absent from `na`, and halves
the total. -/

def cell_dist (a b : Cell) : ℚ :=
  let na := normalizeT a
  let nb := normalizeT b
  ((na.map (fun kv => if hasKey nb kv.1 then |kv.2 - getW nb kv.1| else kv.2)).sum
    + (nb.map (fun kv => if hasKey na kv.1 then 0 else kv.2)).sum) / 2

theorem hasKey_iff (c : Cell) (k : String) : hasKey c k = true ↔ k ∈ cellKeys c := by
  simp [hasKey]

/-- An association list with unique keys sums, entrywise, like a `Finset.sum`
over its key set. -/
theorem sum_entries_toFinset (c : Cell) (hnd : (cellKeys c).Nodup)
    (G : String × ℚ → ℚ) :
    (c.map G).sum = ∑ k ∈ (cellKeys c).toFinset, G (k, getW c k) := by
  induction c with
  | nil => simp [cellKeys]
  | cons kv rest ih =>
    have hck : cellKeys (kv :: rest) = kv.1 :: cellKeys rest := rfl
    have hnd' : (cellKeys rest).Nodup := by
      rw [hck] at hnd; exact hnd.of_cons
    have hk0 : kv.1 ∉ (cellKeys rest).toFinset := by
      rw [hck, List.nodup_cons] at hnd
      simpa using hnd.1
    rw [hck, List.toFinset_cons, Finset.sum_insert hk0]
    have h1 : getW (kv :: rest) kv.1 = kv.2 := by simp [getW]
    rw [h1, List.map_cons, List.sum_cons]
    congr 1
    rw [ih hnd']
    refine Finset.sum_congr rfl (fun k hkmem => ?_)
    have hkne : kv.1 ≠ k := by
      intro h
      rw [hck, List.nodup_cons] at hnd
      exact hnd.1 (h ▸ List.mem_toFinset.mp hkmem)
    simp [getW, hkne]

theorem cellSum_eq_finset (c : Cell) (hnd : (cellKeys c).Nodup) :
    cellSum c = ∑ k ∈ (cellKeys c).toFinset, getW c k := by
  have := sum_entries_toFinset c hnd Prod.snd
  simpa [cellSum] using this

/-- The key set over which `cell_dist` effectively sums. -/
def unionKeys (a b : Cell) : Finset String :=
  (cellKeys a).toFinset ∪ (cellKeys b).toFinset

/-- Sum of normalized weights over any key superset is 1. -/
theorem sum_normalizeT_superset (a : Cell) (ha : CellWF a) (hs : cellSum a ≠ 0)
    (K : Finset String) (hK : (cellKeys a).toFinset ⊆ K) :
    ∑ k ∈ K, getW (normalizeT a) k = 1 := by
  have hnd : (cellKeys (normalizeT a)).Nodup := by
    rw [cellKeys_normalizeT]; exact ha.1
  have h1 : ∑ k ∈ (cellKeys a).toFinset, getW (normalizeT a) k = 1 := by
    rw [show ((cellKeys a).toFinset : Finset String)
        = (cellKeys (normalizeT a)).toFinset by rw [cellKeys_normalizeT]]
    rw [← cellSum_eq_finset _ hnd]
    exact cellSum_normalizeT hs
  rw [← h1]
  symm
  refine Finset.sum_subset hK (fun k _ hk => ?_)
  apply getW_eq_zero_of_not_mem
  rw [cellKeys_normalizeT]
  simpa using hk

/-- `cell_dist` as a halved taxicab distance over the union of key sets. -/
theorem cell_dist_eq_tv (a b : Cell) (ha : CellWF a) (hb : CellWF b)
    (hsa : 0 < cellSum a) (hsb : 0 < cellSum b) :
    cell_dist a b
      = (∑ k ∈ unionKeys a b,
          |getW (normalizeT a) k - getW (normalizeT b) k|) / 2 := by
  have hna : (cellKeys (normalizeT a)).Nodup := by
    rw [cellKeys_normalizeT]; exact ha.1
  have hnb : (cellKeys (normalizeT b)).Nodup := by
    rw [cellKeys_normalizeT]; exact hb.1
  have hannn : ∀ kv ∈ normalizeT a, 0 ≤ kv.2 := normalizeT_nonneg ha.2 hsa
  have hbnnn : ∀ kv ∈ normalizeT b, 0 ≤ kv.2 := normalizeT_nonneg hb.2 hsb
  unfold cell_dist
  simp only []
  congr 1
  rw [sum_entries_toFinset _ hna, sum_entries_toFinset _ hnb]
  simp only [cellKeys_normalizeT]
  have r1 : ∑ k ∈ (cellKeys a).toFinset,
      (if hasKey (normalizeT b) k then
        |getW (normalizeT a) k - getW (normalizeT b) k|
      else getW (normalizeT a) k)
      = ∑ k ∈ (cellKeys a).toFinset,
          |getW (normalizeT a) k - getW (normalizeT b) k| := by
    refine Finset.sum_congr rfl (fun k hk => ?_)
    by_cases hmem : hasKey (normalizeT b) k
    · rw [if_pos hmem]
    · rw [if_neg hmem]
      have hz : getW (normalizeT b) k = 0 := by
        apply getW_eq_zero_of_not_mem
        rw [← hasKey_iff]
        simpa using hmem
      rw [hz, sub_zero, abs_of_nonneg (getW_nonneg hannn k)]
  have r2 : ∑ k ∈ (cellKeys b).toFinset,
      (if hasKey (normalizeT a) k then 0 else getW (normalizeT b) k)
      = ∑ k ∈ (cellKeys b).toFinset \ (cellKeys a).toFinset,
          |getW (normalizeT a) k - getW (normalizeT b) k| := by
    rw [Finset.sdiff_eq_filter, Finset.sum_filter]
    refine Finset.sum_congr rfl (fun k hk => ?_)
    by_cases hmem : k ∈ (cellKeys a).toFinset
    · have hh : hasKey (normalizeT a) k = true := by
        rw [hasKey_iff, cellKeys_normalizeT]; simpa using hmem
      simp [hh, hmem]
    · have hh : hasKey (normalizeT a) k = false := by
        rw [Bool.eq_false_iff]
        intro hcon
        rw [hasKey_iff, cellKeys_normalizeT] at hcon
        exact hmem (by simpa using hcon)
      have hz : getW (normalizeT a) k = 0 := by
        apply getW_eq_zero_of_not_mem
        rw [cellKeys_normalizeT]
        simpa using hmem
      simp only [hh, Bool.false_eq_true, if_false, hmem]
      rw [hz, zero_sub, abs_neg, abs_of_nonneg (getW_nonneg hbnnn k)]
      simp
  rw [r1, r2]
  rw [← Finset.sum_union Finset.sdiff_disjoint.symm, Finset.union_sdiff_self_eq_union]
  rfl

/-- For non-negative reals, `|x - y| = x + y` exactly when one of them is 0. -/
theorem abs_sub_eq_add_iff {x y : ℚ} (hx : 0 ≤ x) (hy : 0 ≤ y) :
    |x - y| = x + y ↔ x = 0 ∨ y = 0 := by
  constructor
  · intro h
    rcases le_total x y with hle | hle
    · left
      have : |x - y| = y - x := by
        rw [abs_of_nonpos (by linarith)]; ring
      linarith [this ▸ h]
    · right
      have : |x - y| = x - y := abs_of_nonneg (by linarith)
      linarith [this ▸ h]
  · rintro (rfl | rfl)
    · rw [zero_sub, abs_neg, abs_of_nonneg hy, zero_add]
    · rw [sub_zero, abs_of_nonneg hx, add_zero]

/-- C3 (confirmed): for data-model cells (unique keys, non-negative weights)
with positive weight sums, `cell_dist` is symmetric, lies in `[0, 1]`, is 0
iff the normalized distributions agree on every label, and is 1 iff the
supports (labels of non-zero weight) of the two cells are disjoint. -/
theorem claim3_cell_dist (a b : Cell) (ha : CellWF a) (hb : CellWF b)
    (hsa : 0 < cellSum a) (hsb : 0 < cellSum b) :
    cell_dist a b = cell_dist b a ∧
    0 ≤ cell_dist a b ∧ cell_dist a b ≤ 1 ∧
    (cell_dist a b = 0 ↔
      ∀ k, getW (normalizeT a) k = getW (normalizeT b) k) ∧
    (cell_dist a b = 1 ↔ ∀ k, getW a k = 0 ∨ getW b k = 0) := by
  have htv := cell_dist_eq_tv a b ha hb hsa hsb
  have hannn : ∀ kv ∈ normalizeT a, 0 ≤ kv.2 := normalizeT_nonneg ha.2 hsa
  have hbnnn : ∀ kv ∈ normalizeT b, 0 ≤ kv.2 := normalizeT_nonneg hb.2 hsb
  have hna : ∀ k, 0 ≤ getW (normalizeT a) k := getW_nonneg hannn
  have hnb : ∀ k, 0 ≤ getW (normalizeT b) k := getW_nonneg hbnnn
  have hzeroa : ∀ k, k ∉ unionKeys a b → getW (normalizeT a) k = 0 := by
    intro k hk
    apply getW_eq_zero_of_not_mem
    rw [cellKeys_normalizeT]
    intro hmem
    exact hk (Finset.mem_union_left _ (List.mem_toFinset.mpr hmem))
  have hzerob : ∀ k, k ∉ unionKeys a b → getW (normalizeT b) k = 0 := by
    intro k hk
    apply getW_eq_zero_of_not_mem
    rw [cellKeys_normalizeT]
    intro hmem
    exact hk (Finset.mem_union_right _ (List.mem_toFinset.mpr hmem))
  have hsum1a : ∑ k ∈ unionKeys a b, getW (normalizeT a) k = 1 :=
    sum_normalizeT_superset a ha hsa.ne' _ Finset.subset_union_left
  have hsum1b : ∑ k ∈ unionKeys a b, getW (normalizeT b) k = 1 :=
    sum_normalizeT_superset b hb hsb.ne' _ Finset.subset_union_right
  have hle : ∀ k ∈ unionKeys a b,
      |getW (normalizeT a) k - getW (normalizeT b) k|
        ≤ getW (normalizeT a) k + getW (normalizeT b) k := by
    intro k _
    rw [abs_sub_le_iff]
    constructor <;> [linarith [hnb k]; linarith [hna k]]
  have hsum2 : ∑ k ∈ unionKeys a b,
      (getW (normalizeT a) k + getW (normalizeT b) k) = 2 := by
    rw [Finset.sum_add_distrib, hsum1a, hsum1b]
    norm_num
  refine ⟨?_, ?_, ?_, ?_, ?_⟩
  · -- symmetry
    rw [htv, cell_dist_eq_tv b a hb ha hsb hsa]
    congr 1
    rw [show unionKeys a b = unionKeys b a from Finset.union_comm _ _]
    exact Finset.sum_congr rfl (fun k _ => abs_sub_comm _ _)
  · -- non-negativity
    rw [htv]
    positivity
  · -- bounded by 1
    rw [htv]
    rw [div_le_one (by norm_num)]
    calc ∑ k ∈ unionKeys a b, |getW (normalizeT a) k - getW (normalizeT b) k|
        ≤ ∑ k ∈ unionKeys a b,
            (getW (normalizeT a) k + getW (normalizeT b) k) :=
          Finset.sum_le_sum hle
      _ = 2 := hsum2
  · -- zero iff normalized distributions equal
    rw [htv, div_eq_zero_iff]
    constructor
    · rintro (hz | h2) <;> [skip; norm_num at h2]
      intro k
      by_cases hk : k ∈ unionKeys a b
      · have := (Finset.sum_eq_zero_iff_of_nonneg
          (fun k _ => abs_nonneg _)).mp hz k hk
        have := abs_eq_zero.mp this
        linarith
      · rw [hzeroa k hk, hzerob k hk]
    · intro h
      left
      apply Finset.sum_eq_zero
      intro k _
      rw [h k, sub_self, abs_zero]
  · -- one iff supports disjoint
    rw [htv, div_eq_one_iff_eq (by norm_num)]
    rw [show (2 : ℚ) = ∑ k ∈ unionKeys a b,
        (getW (normalizeT a) k + getW (normalizeT b) k) from hsum2.symm]
    rw [Finset.sum_eq_sum_iff_of_le hle]
    have hstep : ∀ k,
        (getW (normalizeT a) k = 0 ∨ getW (normalizeT b) k = 0)
          ↔ (getW a k = 0 ∨ getW b k = 0) := by
      intro k
      rw [getW_normalizeT, getW_normalizeT, div_eq_zero_iff, div_eq_zero_iff]
      constructor
      · rintro ((h | h) | (h | h))
        · exact Or.inl h
        · exact absurd h hsa.ne'
        · exact Or.inr h
        · exact absurd h hsb.ne'
      · rintro (h | h)
        · exact Or.inl (Or.inl h)
        · exact Or.inr (Or.inl h)
    constructor
    · intro h k
      by_cases hk : k ∈ unionKeys a b
      · rw [← hstep k]
        exact (abs_sub_eq_add_iff (hna k) (hnb k)).mp (h k hk)
      · left
        have := hzeroa k hk
        rw [getW_normalizeT, div_eq_zero_iff] at this
        rcases this with h0 | h0
        · exact h0
        · exact absurd h0 hsa.ne'
    · intro h k hk
      exact (abs_sub_eq_add_iff (hna k) (hnb k)).mpr ((hstep k).mpr (h k))

/-- Witness for C3 at the concrete cells `{"A": 1, "B": 1}` and `{"B": 2}`. -/
theorem claim3_witness :
    CellWF [("A", (1 : ℚ)), ("B", 1)] ∧ CellWF [("B", (2 : ℚ))] ∧
    (0 : ℚ) < cellSum [("A", 1), ("B", 1)] ∧ (0 : ℚ) < cellSum [("B", 2)] ∧
    (cell_dist [("A", 1), ("B", 1)] [("B", 2)]
      = cell_dist [("B", 2)] [("A", 1), ("B", 1)] ∧
    0 ≤ cell_dist [("A", 1), ("B", 1)] [("B", 2)] ∧
    cell_dist [("A", 1), ("B", 1)] [("B", 2)] ≤ 1 ∧
    (cell_dist [("A", 1), ("B", 1)] [("B", 2)] = 0 ↔
      ∀ k, getW (normalizeT [("A", 1), ("B", 1)]) k
        = getW (normalizeT [("B", 2)]) k) ∧
    (cell_dist [("A", 1), ("B", 1)] [("B", 2)] = 1 ↔
      ∀ k, getW [("A", 1), ("B", 1)] k = 0 ∨ getW [("B", 2)] k = 0)) := by
  refine ⟨by decide, by decide, by norm_num [cellSum], by norm_num [cellSum], ?_⟩
  exact claim3_cell_dist _ _ (by decide) (by decide)
    (by norm_num [cellSum]) (by norm_num [cellSum])

/-! ## merge_cells (src/combination.py lines 86-105)

`merge_cells(a, b, wa, wb)` normalizes both inputs, starts from a clone of
`na`, folds the keys of `nb` in (weighted average for shared keys, scaled
`b`-weight for `b`-only keys), then rescales the `a`-only keys. -/

def merge_cells (a b : Cell) (wa wb : ℚ) : Cell :=
  let na := normalizeT a
  let nb := normalizeT b
  let ret := nb.foldl (fun r kv =>
    if hasKey r kv.1 then -- keys in both cells
      dictSet r kv.1 ((wa * getW r kv.1 + wb * kv.2) / (wa + wb))
    else -- only b-keys
      dictSet r kv.1 (wb * kv.2 / (wa + wb))) na
  na.foldl (fun r kv =>
    if ¬ hasKey nb kv.1 then -- only a-keys
      dictSet r kv.1 (wa * getW r kv.1 / (wa + wb))
    else r) ret

/-! ### dictSet lemmas -/

theorem getW_append (c d : Cell) (k : String) :
    getW (c ++ d) k = if k ∈ cellKeys c then getW c k else getW d k := by
  induction c with
  | nil => simp [cellKeys, getW]
  | cons kv rest ih =>
    have hck : cellKeys (kv :: rest) = kv.1 :: cellKeys rest := rfl
    by_cases h : kv.1 = k
    · subst h
      simp [getW, cellKeys]
    · have h1 : getW ((kv :: rest) ++ d) k = getW (rest ++ d) k := by
        simp [getW, h]
      have h2 : getW (kv :: rest) k = getW rest k := by
        simp [getW, h]
      have h3 : (k ∈ cellKeys (kv :: rest)) ↔ (k ∈ cellKeys rest) := by
        rw [hck, List.mem_cons]
        constructor
        · rintro (h4 | hm)
          · exact absurd h4.symm h
          · exact hm
        · exact Or.inr
      rw [h1, ih]
      by_cases hmem : k ∈ cellKeys rest
      · rw [if_pos hmem, if_pos (h3.mpr hmem), h2]
      · rw [if_neg hmem, if_neg (fun hh => hmem (h3.mp hh))]

theorem getW_mapReplace {c : Cell} {k : String} (v : ℚ) (hk : k ∈ cellKeys c) :
    getW (c.map (fun kv => if kv.1 = k then (k, v) else kv)) k = v := by
  induction c with
  | nil => simp [cellKeys] at hk
  | cons kv rest ih =>
    by_cases hh : kv.1 = k
    · simp [getW, hh]
    · have hk' : k ∈ cellKeys rest := by
        rcases (by simpa [cellKeys] using hk : k = kv.1 ∨ k ∈ cellKeys rest) with h | h
        · exact absurd h.symm hh
        · exact h
      simp only [List.map_cons, if_neg hh, getW, if_neg hh]
      exact ih hk'

theorem getW_mapReplace_ne {c : Cell} {k k' : String} (v : ℚ) (hne : k' ≠ k) :
    getW (c.map (fun kv => if kv.1 = k then (k, v) else kv)) k'
      = getW c k' := by
  induction c with
  | nil => simp [getW]
  | cons kv rest ih =>
    by_cases hh : kv.1 = k
    · subst hh
      have hx : kv.1 ≠ k' := fun h => hne h.symm
      simp [getW, hx, ih]
    · simp only [List.map_cons, if_neg hh, getW]
      by_cases h2 : kv.1 = k'
      · rw [if_pos h2, if_pos h2]
      · rw [if_neg h2, if_neg h2]
        exact ih

theorem getW_dictSet (c : Cell) (k : String) (v : ℚ) :
    getW (dictSet c k v) k = v := by
  unfold dictSet
  by_cases h : hasKey c k
  · rw [if_pos h]
    exact getW_mapReplace v ((hasKey_iff c k).mp h)
  · rw [if_neg h, getW_append,
      if_neg (fun hm => h ((hasKey_iff c k).mpr hm))]
    simp [getW]

theorem getW_dictSet_ne (c : Cell) (k k' : String) (v : ℚ) (hne : k' ≠ k) :
    getW (dictSet c k v) k' = getW c k' := by
  unfold dictSet
  by_cases h : hasKey c k
  · rw [if_pos h]
    exact getW_mapReplace_ne v hne
  · rw [if_neg h, getW_append]
    by_cases hm : k' ∈ cellKeys c
    · rw [if_pos hm]
    · rw [if_neg hm, getW_eq_zero_of_not_mem hm]
      have hx : k ≠ k' := fun hh => hne hh.symm
      simp [getW, hx]

theorem cellKeys_mapReplace (c : Cell) (k : String) (v : ℚ) :
    cellKeys (c.map (fun kv => if kv.1 = k then (k, v) else kv)) = cellKeys c := by
  induction c with
  | nil => rfl
  | cons kv rest ih =>
    by_cases hh : kv.1 = k
    · simp only [cellKeys, List.map_cons, if_pos hh] at *
      rw [ih]
      simp [hh]
    · simp only [cellKeys, List.map_cons, if_neg hh] at *
      rw [ih]

theorem mem_cellKeys_dictSet (c : Cell) (k k' : String) (v : ℚ) :
    k' ∈ cellKeys (dictSet c k v) ↔ k' ∈ cellKeys c ∨ k' = k := by
  unfold dictSet
  by_cases h : hasKey c k
  · rw [if_pos h, cellKeys_mapReplace]
    constructor
    · exact Or.inl
    · rintro (hm | rfl)
      · exact hm
      · exact (hasKey_iff c k').mp h
  · rw [if_neg h]
    simp [cellKeys]

theorem nodup_cellKeys_dictSet {c : Cell} (k : String) (v : ℚ)
    (h : (cellKeys c).Nodup) : (cellKeys (dictSet c k v)).Nodup := by
  unfold dictSet
  by_cases hk : hasKey c k
  · rw [if_pos hk, cellKeys_mapReplace]
    exact h
  · rw [if_neg hk]
    have : cellKeys (c ++ [(k, v)]) = cellKeys c ++ [k] := by
      simp [cellKeys]
    rw [this, List.nodup_append]
    refine ⟨h, List.nodup_singleton k, ?_⟩
    intro x hx
    simp only [List.mem_singleton]
    intro hxk
    exact hk ((hasKey_iff c k).mpr (hxk ▸ hx))

/-- In an association list with unique keys every entry value is the lookup
of its key. -/
theorem entry_eq_getW {c : Cell} (hnd : (cellKeys c).Nodup) :
    ∀ kv ∈ c, kv.2 = getW c kv.1 := by
  induction c with
  | nil => intro kv h; simp at h
  | cons kv0 rest ih =>
    intro kv hkv
    rcases List.mem_cons.mp hkv with rfl | hm
    · simp [getW]
    · have hck : cellKeys (kv0 :: rest) = kv0.1 :: cellKeys rest := rfl
      rw [hck, List.nodup_cons] at hnd
      have hne : kv0.1 ≠ kv.1 := by
        intro h
        exact hnd.1 (h ▸ List.mem_map_of_mem Prod.fst hm)
      simp only [getW, if_neg hne]
      exact ih hnd.2 kv hm

/-! ### Characterizing the two loops of merge_cells -/

theorem mergeLoop1_getW (wa wb : ℚ) :
    ∀ (nb' : Cell), (cellKeys nb').Nodup → ∀ (r : Cell) (k : String),
    getW (nb'.foldl (fun r kv =>
      if hasKey r kv.1 then
        dictSet r kv.1 ((wa * getW r kv.1 + wb * kv.2) / (wa + wb))
      else
        dictSet r kv.1 (wb * kv.2 / (wa + wb))) r) k
    = if k ∈ cellKeys nb' then
        (if k ∈ cellKeys r then (wa * getW r k + wb * getW nb' k) / (wa + wb)
          else wb * getW nb' k / (wa + wb))
      else getW r k := by
  intro nb'
  induction nb' with
  | nil => intro _ r k; simp [cellKeys]
  | cons kv rest ih =>
    intro hnd r k
    have hck : cellKeys (kv :: rest) = kv.1 :: cellKeys rest := rfl
    rw [hck, List.nodup_cons] at hnd
    rw [List.foldl_cons, ih hnd.2]
    by_cases hk : k = kv.1
    · rw [hk]
      rw [if_neg hnd.1]
      have hhead : getW (kv :: rest) kv.1 = kv.2 := by simp [getW]
      have hmemc : kv.1 ∈ cellKeys (kv :: rest) := by
        rw [hck]; exact List.mem_cons_self _ _
      rw [if_pos hmemc, hhead]
      by_cases hmem : hasKey r kv.1
      · rw [if_pos hmem, if_pos ((hasKey_iff r kv.1).mp hmem)]
        exact getW_dictSet _ _ _
      · rw [if_neg hmem, if_neg (fun hm => hmem ((hasKey_iff r kv.1).mpr hm))]
        exact getW_dictSet _ _ _
    · have hgr : ∀ v : ℚ, getW (dictSet r kv.1 v) k = getW r k :=
        fun v => getW_dictSet_ne r kv.1 k v hk
      have hmr : ∀ v : ℚ, (k ∈ cellKeys (dictSet r kv.1 v)) ↔ k ∈ cellKeys r := by
        intro v
        rw [mem_cellKeys_dictSet]
        exact ⟨fun h => h.elim id (fun h => absurd h hk), Or.inl⟩
      have hhead : getW (kv :: rest) k = getW rest k := by
        have hx : kv.1 ≠ k := fun h => hk h.symm
        simp [getW, hx]
      have hmem2 : (k ∈ cellKeys (kv :: rest)) ↔ k ∈ cellKeys rest := by
        rw [hck, List.mem_cons]
        exact ⟨fun h => h.elim (fun h => absurd h hk) id, Or.inr⟩
      by_cases hmem : hasKey r kv.1
      · rw [if_pos hmem]
        simp only [hgr, hmr, hhead, hmem2]
      · rw [if_neg hmem]
        simp only [hgr, hmr, hhead, hmem2]

theorem mergeLoop1_keys (wa wb : ℚ) :
    ∀ (nb' r : Cell) (k : String),
    (k ∈ cellKeys (nb'.foldl (fun r kv =>
      if hasKey r kv.1 then
        dictSet r kv.1 ((wa * getW r kv.1 + wb * kv.2) / (wa + wb))
      else
        dictSet r kv.1 (wb * kv.2 / (wa + wb))) r))
    ↔ k ∈ cellKeys r ∨ k ∈ cellKeys nb' := by
  intro nb'
  induction nb' with
  | nil => intro r k; simp [cellKeys]
  | cons kv rest ih =>
    intro r k
    rw [List.foldl_cons, ih]
    have hck : cellKeys (kv :: rest) = kv.1 :: cellKeys rest := rfl
    rw [hck, List.mem_cons]
    by_cases hmem : hasKey r kv.1
    · rw [if_pos hmem, mem_cellKeys_dictSet]
      constructor
      · rintro ((h | h) | h)
        · exact Or.inl h
        · exact Or.inr (Or.inl h)
        · exact Or.inr (Or.inr h)
      · rintro (h | h | h)
        · exact Or.inl (Or.inl h)
        · exact Or.inl (Or.inr h)
        · exact Or.inr h
    · rw [if_neg hmem, mem_cellKeys_dictSet]
      constructor
      · rintro ((h | h) | h)
        · exact Or.inl h
        · exact Or.inr (Or.inl h)
        · exact Or.inr (Or.inr h)
      · rintro (h | h | h)
        · exact Or.inl (Or.inl h)
        · exact Or.inl (Or.inr h)
        · exact Or.inr h

theorem mergeLoop1_nodup (wa wb : ℚ) :
    ∀ (nb' r : Cell), (cellKeys r).Nodup →
    (cellKeys (nb'.foldl (fun r kv =>
      if hasKey r kv.1 then
        dictSet r kv.1 ((wa * getW r kv.1 + wb * kv.2) / (wa + wb))
      else
        dictSet r kv.1 (wb * kv.2 / (wa + wb))) r)).Nodup := by
  intro nb'
  induction nb' with
  | nil => intro r h; exact h
  | cons kv rest ih =>
    intro r h
    rw [List.foldl_cons]
    apply ih
    by_cases hmem : hasKey r kv.1
    · rw [if_pos hmem]; exact nodup_cellKeys_dictSet _ _ h
    · rw [if_neg hmem]; exact nodup_cellKeys_dictSet _ _ h

theorem mergeLoop2_getW (wa wb : ℚ) (nb : Cell) :
    ∀ (na' : Cell), (cellKeys na').Nodup → ∀ (r : Cell) (k : String),
    getW (na'.foldl (fun r kv =>
      if ¬ hasKey nb kv.1 then dictSet r kv.1 (wa * getW r kv.1 / (wa + wb))
      else r) r) k
    = if k ∈ cellKeys na' ∧ k ∉ cellKeys nb then wa * getW r k / (wa + wb)
      else getW r k := by
  intro na'
  induction na' with
  | nil => intro _ r k; simp [cellKeys]
  | cons kv rest ih =>
    intro hnd r k
    have hck : cellKeys (kv :: rest) = kv.1 :: cellKeys rest := rfl
    rw [hck, List.nodup_cons] at hnd
    rw [List.foldl_cons, ih hnd.2]
    by_cases hk : k = kv.1
    · rw [hk]
      rw [if_neg (fun h => hnd.1 h.1)]
      have hmemc : kv.1 ∈ cellKeys (kv :: rest) := by
        rw [hck]; exact List.mem_cons_self _ _
      by_cases hnb : hasKey nb kv.1
      · rw [if_neg (by simpa using hnb)]
        rw [if_neg (fun h => h.2 ((hasKey_iff nb kv.1).mp hnb))]
      · rw [if_pos (by simpa using hnb)]
        rw [if_pos ⟨hmemc, fun h => hnb ((hasKey_iff nb kv.1).mpr h)⟩]
        exact getW_dictSet _ _ _
    · have hmem2 : (k ∈ cellKeys (kv :: rest)) ↔ k ∈ cellKeys rest := by
        rw [hck, List.mem_cons]
        exact ⟨fun h => h.elim (fun h => absurd h hk) id, Or.inr⟩
      have hgr : getW (if ¬ hasKey nb kv.1 then
          dictSet r kv.1 (wa * getW r kv.1 / (wa + wb)) else r) k = getW r k := by
        by_cases hnb : hasKey nb kv.1
        · rw [if_neg (by simpa using hnb)]
        · rw [if_pos (by simpa using hnb)]
          exact getW_dictSet_ne r kv.1 k _ hk
      rw [hgr]
      by_cases hin : k ∈ cellKeys rest ∧ k ∉ cellKeys nb
      · rw [if_pos hin, if_pos ⟨hmem2.mpr hin.1, hin.2⟩]
      · rw [if_neg hin, if_neg (fun h => hin ⟨hmem2.mp h.1, h.2⟩)]

theorem mergeLoop2_keys (wa wb : ℚ) (nb : Cell) :
    ∀ (na' r : Cell) (k : String),
    (k ∈ cellKeys (na'.foldl (fun r kv =>
      if ¬ hasKey nb kv.1 then dictSet r kv.1 (wa * getW r kv.1 / (wa + wb))
      else r) r))
    ↔ k ∈ cellKeys r ∨ (k ∈ cellKeys na' ∧ k ∉ cellKeys nb) := by
  intro na'
  induction na' with
  | nil => intro r k; simp [cellKeys]
  | cons kv rest ih =>
    intro r k
    rw [List.foldl_cons, ih]
    have hck : cellKeys (kv :: rest) = kv.1 :: cellKeys rest := rfl
    rw [hck, List.mem_cons]
    by_cases hnb : hasKey nb kv.1
    · rw [if_neg (by simpa using hnb)]
      constructor
      · rintro (h | h)
        · exact Or.inl h
        · exact Or.inr ⟨Or.inr h.1, h.2⟩
      · rintro (h | ⟨h1 | h1, h2⟩)
        · exact Or.inl h
        · refine absurd ?_ h2
          rw [h1]
          exact (hasKey_iff nb kv.1).mp hnb
        · exact Or.inr ⟨h1, h2⟩
    · rw [if_pos (by simpa using hnb), mem_cellKeys_dictSet]
      constructor
      · rintro ((h | h) | h)
        · exact Or.inl h
        · refine Or.inr ⟨Or.inl h, fun hm => hnb ?_⟩
          apply (hasKey_iff nb kv.1).mpr
          rw [← h]
          exact hm
        · exact Or.inr ⟨Or.inr h.1, h.2⟩
      · rintro (h | ⟨h1 | h1, h2⟩)
        · exact Or.inl (Or.inl h)
        · exact Or.inl (Or.inr h1)
        · exact Or.inr ⟨h1, h2⟩

theorem mergeLoop2_nodup (wa wb : ℚ) (nb : Cell) :
    ∀ (na' r : Cell), (cellKeys r).Nodup →
    (cellKeys (na'.foldl (fun r kv =>
      if ¬ hasKey nb kv.1 then dictSet r kv.1 (wa * getW r kv.1 / (wa + wb))
      else r) r)).Nodup := by
  intro na'
  induction na' with
  | nil => intro r h; exact h
  | cons kv rest ih =>
    intro r h
    rw [List.foldl_cons]
    apply ih
    by_cases hnb : hasKey nb kv.1
    · rw [if_neg (by simpa using hnb)]; exact h
    · rw [if_pos (by simpa using hnb)]
      exact nodup_cellKeys_dictSet _ _ h

/-! ### Claim C6 -/

/-- Counterexample to C6: with `wa = -1`, `wb = 2` (so `wa + wb > 0` as the
claim requires) and the certain cells `{"x": 1}`, `{"y": 1}`, the merged cell
carries the negative weight `-1` for `"x"` — the claimed non-negativity
fails when a confidence weight may be negative. -/
theorem claim6_counterexample :
    CellWF [("x", (1 : ℚ))] ∧ CellWF [("y", (1 : ℚ))] ∧
    (0 : ℚ) < cellSum [("x", (1 : ℚ))] ∧ (0 : ℚ) < cellSum [("y", (1 : ℚ))] ∧
    (0 : ℚ) < (-1) + 2 ∧
    merge_cells [("x", 1)] [("y", 1)] (-1) 2 = [("x", -1), ("y", 2)] ∧
    ((-1 : ℚ) < 0) := by
  refine ⟨by decide, by decide, by norm_num [cellSum], by norm_num [cellSum],
    by norm_num, ?_, by norm_num⟩
  norm_num +decide [merge_cells, normalizeT, cellSum, getW, hasKey, cellKeys,
    dictSet]

/-- C6 (amended): for data-model cells with positive weight sums and
*non-negative* confidence weights with `wa + wb > 0`, `merge_cells` returns
an already-normalized cell: unique keys, non-negative weights summing to 1,
and each label's weight is the `(wa, wb)`-weighted average of that label's
normalized weight in `a` and in `b` (0 for a label absent in one side). -/
theorem claim6_merge_cells (a b : Cell) (wa wb : ℚ) (ha : CellWF a)
    (hb : CellWF b) (hsa : 0 < cellSum a) (hsb : 0 < cellSum b)
    (hwa : 0 ≤ wa) (hwb : 0 ≤ wb) (hw : 0 < wa + wb) :
    CellWF (merge_cells a b wa wb) ∧
    cellSum (merge_cells a b wa wb) = 1 ∧
    ∀ k, getW (merge_cells a b wa wb) k
      = (wa * (getW a k / cellSum a) + wb * (getW b k / cellSum b))
          / (wa + wb) := by
  have hnda : (cellKeys (normalizeT a)).Nodup := by
    rw [cellKeys_normalizeT]; exact ha.1
  have hndb : (cellKeys (normalizeT b)).Nodup := by
    rw [cellKeys_normalizeT]; exact hb.1
  have hannn : ∀ k, 0 ≤ getW (normalizeT a) k :=
    getW_nonneg (normalizeT_nonneg ha.2 hsa)
  have hbnnn : ∀ k, 0 ≤ getW (normalizeT b) k :=
    getW_nonneg (normalizeT_nonneg hb.2 hsb)
  have hgetW0 : ∀ k, getW (merge_cells a b wa wb) k
      = (wa * getW (normalizeT a) k + wb * getW (normalizeT b) k)
          / (wa + wb) := by
    intro k
    unfold merge_cells
    simp only []
    rw [mergeLoop2_getW wa wb (normalizeT b) (normalizeT a) hnda]
    rw [mergeLoop1_getW wa wb (normalizeT b) hndb]
    by_cases hkb : k ∈ cellKeys (normalizeT b)
    · rw [if_neg (fun h => h.2 hkb), if_pos hkb]
      by_cases hka : k ∈ cellKeys (normalizeT a)
      · rw [if_pos hka]
      · rw [if_neg hka, getW_eq_zero_of_not_mem hka]
        ring_nf
    · by_cases hka : k ∈ cellKeys (normalizeT a)
      · rw [if_pos ⟨hka, hkb⟩, if_neg hkb, getW_eq_zero_of_not_mem hkb]
        ring_nf
      · rw [if_neg (fun h => hka h.1), if_neg hkb,
          getW_eq_zero_of_not_mem hkb, getW_eq_zero_of_not_mem hka]
        ring_nf
  have hkeys : ∀ k, k ∈ cellKeys (merge_cells a b wa wb)
      ↔ k ∈ cellKeys a ∨ k ∈ cellKeys b := by
    intro k
    unfold merge_cells
    simp only []
    rw [mergeLoop2_keys, mergeLoop1_keys]
    rw [cellKeys_normalizeT, cellKeys_normalizeT]
    tauto
  have hnodup : (cellKeys (merge_cells a b wa wb)).Nodup := by
    unfold merge_cells
    simp only []
    exact mergeLoop2_nodup _ _ _ _ _ (mergeLoop1_nodup _ _ _ _ hnda)
  have hsum : cellSum (merge_cells a b wa wb) = 1 := by
    rw [cellSum_eq_finset _ hnodup]
    have hset : (cellKeys (merge_cells a b wa wb)).toFinset = unionKeys a b := by
      apply Finset.ext
      intro k
      rw [List.mem_toFinset, hkeys, unionKeys, Finset.mem_union,
        List.mem_toFinset, List.mem_toFinset]
    rw [hset]
    have : ∀ k ∈ unionKeys a b, getW (merge_cells a b wa wb) k
        = (wa * getW (normalizeT a) k + wb * getW (normalizeT b) k)
            / (wa + wb) := fun k _ => hgetW0 k
    rw [Finset.sum_congr rfl this]
    rw [← Finset.sum_div, Finset.sum_add_distrib, ← Finset.mul_sum,
      ← Finset.mul_sum]
    rw [sum_normalizeT_superset a ha hsa.ne' (unionKeys a b)
        (by rw [unionKeys]; exact Finset.subset_union_left),
      sum_normalizeT_superset b hb hsb.ne' (unionKeys a b)
        (by rw [unionKeys]; exact Finset.subset_union_right)]
    rw [mul_one, mul_one, div_self hw.ne']
  refine ⟨⟨hnodup, ?_⟩, hsum, ?_⟩
  · intro kv hkv
    rw [entry_eq_getW hnodup kv hkv, hgetW0]
    have := hannn kv.1
    have := hbnnn kv.1
    positivity
  · intro k
    rw [hgetW0, ← getW_normalizeT, ← getW_normalizeT]

/-- Witness for C6 (amended) at `a = {"A": 1}`, `b = {"A": 1, "B": 3}`,
`wa = 1`, `wb = 1`. -/
theorem claim6_witness :
    CellWF [("A", (1 : ℚ))] ∧ CellWF [("A", (1 : ℚ)), ("B", 3)] ∧
    (0 : ℚ) < cellSum [("A", (1 : ℚ))] ∧
    (0 : ℚ) < cellSum [("A", (1 : ℚ)), ("B", 3)] ∧
    (0 : ℚ) ≤ 1 ∧ (0 : ℚ) < 1 + 1 ∧
    (CellWF (merge_cells [("A", 1)] [("A", 1), ("B", 3)] 1 1) ∧
     cellSum (merge_cells [("A", 1)] [("A", 1), ("B", 3)] 1 1) = 1 ∧
     ∀ k, getW (merge_cells [("A", 1)] [("A", 1), ("B", 3)] 1 1) k
       = (1 * (getW [("A", 1)] k / cellSum [("A", 1)])
          + 1 * (getW [("A", 1), ("B", 3)] k / cellSum [("A", 1), ("B", 3)]))
           / (1 + 1)) := by
  refine ⟨by decide, by decide, by norm_num [cellSum], by norm_num [cellSum],
    by norm_num, by norm_num, ?_⟩
  exact claim6_merge_cells _ _ _ _ (by decide) (by decide)
    (by norm_num [cellSum]) (by norm_num [cellSum]) (by norm_num) (by norm_num)
    (by norm_num)

/-! ## The alignment DP matrix (src/combination.py lines 190-223)

`dp[i][j]` is filled by the identical recurrence in `Alignment.add_string`
(combination.py lines 198-216), `AlignmentWithEstimation.add_string`
(combination_with_estimation.py lines 155-173) and `levmetric_ocr`
(combination.py lines 121-136); the insertion/deletion cost is the distance
to the all-gap cell `self.ec = Cell({'@': 1.0})`.  We embed the matrix as a
function of the two prefix lengths. -/

def ec : Cell := [("@", 1)]

def dpA (base s : List Cell) : ℕ → ℕ → ℚ
  | 0, 0 => 0
  | 0, j + 1 => cell_dist (s.getD j []) ec + dpA base s 0 j
  | i + 1, 0 => cell_dist (base.getD i []) ec + dpA base s i 0
  | i + 1, j + 1 =>
    min (cell_dist (base.getD i []) ec + dpA base s i (j + 1))
      (min (cell_dist (s.getD j []) ec + dpA base s (i + 1) j)
        (cell_dist (base.getD i []) (s.getD j []) + dpA base s i j))

/-- `pen_unmatched_base` at DP cell `(i+1, j+1)` (line 210). -/
def penUB (base s : List Cell) (i j : ℕ) : ℚ :=
  cell_dist (base.getD i []) ec + dpA base s i (j + 1)

/-- `pen_unmatched_s` at DP cell `(i+1, j+1)` (line 212). -/
def penUS (base s : List Cell) (i j : ℕ) : ℚ :=
  cell_dist (s.getD j []) ec + dpA base s (i + 1) j

/-- `pen_matched` at DP cell `(i+1, j+1)` (line 214). -/
def penM (base s : List Cell) (i j : ℕ) : ℚ :=
  cell_dist (base.getD i []) (s.getD j []) + dpA base s i j

def PATH_UNDEFINED : ℤ := -1
def PATH_MATCHED : ℤ := 0
def PATH_UNMATCHED_BASE : ℤ := 1
def PATH_UNMATCHED_S : ℤ := 2

/-- The recorded path matrix (lines 199-205 for the borders, 217-223 for the
interior: `if pen_matched < min(...): MATCHED elif pen_unmatched_base <
pen_unmatched_s: UNMATCHED_BASE else: UNMATCHED_S`). -/
def pathA (base s : List Cell) : ℕ → ℕ → ℤ
  | 0, 0 => PATH_UNDEFINED
  | 0, _ + 1 => PATH_UNMATCHED_S
  | _ + 1, 0 => PATH_UNMATCHED_BASE
  | i + 1, j + 1 =>
    if penM base s i j < min (penUB base s i j) (penUS base s i j) then
      PATH_MATCHED
    else if penUB base s i j < penUS base s i j then PATH_UNMATCHED_BASE
    else PATH_UNMATCHED_S

/-! ### Claim C1 -/

/-- Counterexample to C1: with base `[{"A": 1}]` (the base after
`add_string("A", w)`) and input row `[{"@": 1}]` (the normalized form of an
empty input), at the interior DP cell `(1, 1)` all three penalties tie at 1
(so `pen_matched` equals the minimum and `pen_unmatched_base` equals
`pen_unmatched_s`), yet the recorded label is `PATH_UNMATCHED_S`, not the
claimed `PATH_MATCHED` (first part) and not `PATH_UNMATCHED_BASE` (second
part). -/
theorem claim1_counterexample :
    penM [[("A", 1)]] [ec] 0 0 = 1 ∧
    penUB [[("A", 1)]] [ec] 0 0 = 1 ∧
    penUS [[("A", 1)]] [ec] 0 0 = 1 ∧
    pathA [[("A", 1)]] [ec] 1 1 = PATH_UNMATCHED_S ∧
    PATH_UNMATCHED_S ≠ PATH_MATCHED ∧
    PATH_UNMATCHED_S ≠ PATH_UNMATCHED_BASE := by
  refine ⟨?_, ?_, ?_, ?_, by decide, by decide⟩ <;>
    norm_num +decide [penM, penUB, penUS, pathA, dpA, cell_dist, ec,
      normalizeT, cellSum, getW, hasKey, cellKeys, PATH_MATCHED,
      PATH_UNMATCHED_BASE, PATH_UNMATCHED_S]

/-- C1 (amended): the tie-breaks go the other way round.  At every interior
DP cell the recorded label is `PATH_MATCHED` only when `pen_matched` is
*strictly* below both gap penalties; otherwise (ties included) a gap move is
recorded: `PATH_UNMATCHED_BASE` when `pen_unmatched_base` is strictly below
`pen_unmatched_s`, and `PATH_UNMATCHED_S` otherwise (so on a gap-gap tie
"unmatched s" is preferred).  Moreover the dp value is the minimum of the
three penalties and the recorded move attains it. -/
theorem claim1_tiebreak (base s : List Cell) (i j : ℕ) :
    (penM base s i j < min (penUB base s i j) (penUS base s i j) →
      pathA base s (i + 1) (j + 1) = PATH_MATCHED) ∧
    (¬ penM base s i j < min (penUB base s i j) (penUS base s i j) →
      penUB base s i j < penUS base s i j →
      pathA base s (i + 1) (j + 1) = PATH_UNMATCHED_BASE) ∧
    (¬ penM base s i j < min (penUB base s i j) (penUS base s i j) →
      ¬ penUB base s i j < penUS base s i j →
      pathA base s (i + 1) (j + 1) = PATH_UNMATCHED_S) ∧
    dpA base s (i + 1) (j + 1)
      = min (penUB base s i j) (min (penUS base s i j) (penM base s i j)) ∧
    dpA base s (i + 1) (j + 1)
      = (if pathA base s (i + 1) (j + 1) = PATH_MATCHED then penM base s i j
         else if pathA base s (i + 1) (j + 1) = PATH_UNMATCHED_BASE then
           penUB base s i j
         else penUS base s i j) := by
  have hdp : dpA base s (i + 1) (j + 1)
      = min (penUB base s i j) (min (penUS base s i j) (penM base s i j)) := by
    simp [dpA, penUB, penUS, penM]
  refine ⟨?_, ?_, ?_, hdp, ?_⟩
  · intro h
    simp [pathA, h]
  · intro h1 h2
    simp [pathA, h1, h2]
  · intro h1 h2
    simp [pathA, h1, h2]
  · by_cases h1 : penM base s i j < min (penUB base s i j) (penUS base s i j)
    · have hm := lt_min_iff.mp h1
      have hp : pathA base s (i + 1) (j + 1) = PATH_MATCHED := by
        simp [pathA, h1]
      rw [hdp, hp, if_pos rfl, min_eq_right hm.2.le, min_eq_right hm.1.le]
    · have hmin : min (penUB base s i j) (penUS base s i j) ≤ penM base s i j :=
        not_lt.mp h1
      by_cases h2 : penUB base s i j < penUS base s i j
      · have h3 : penUB base s i j ≤ penM base s i j := by
          rw [min_eq_left h2.le] at hmin
          exact hmin
        have hp : pathA base s (i + 1) (j + 1) = PATH_UNMATCHED_BASE := by
          simp [pathA, h1, h2]
        rw [hdp, hp,
          if_neg (by decide : ¬ (PATH_UNMATCHED_BASE = PATH_MATCHED)),
          if_pos rfl]
        exact min_eq_left (le_min h2.le h3)
      · have h4 : penUS base s i j ≤ penUB base s i j := not_lt.mp h2
        have h3 : penUS base s i j ≤ penM base s i j := by
          rw [min_eq_right h4] at hmin
          exact hmin
        have hp : pathA base s (i + 1) (j + 1) = PATH_UNMATCHED_S := by
          simp [pathA, h1, h2]
        rw [hdp, hp,
          if_neg (by decide : ¬ (PATH_UNMATCHED_S = PATH_MATCHED)),
          if_neg (by decide : ¬ (PATH_UNMATCHED_S = PATH_UNMATCHED_BASE)),
          min_eq_left h3]
        exact min_eq_right h4

/-- Witness for C1 (amended) at the concrete three-way tie of
`claim1_counterexample`: both non-strict hypotheses hold and the theorem
yields `PATH_UNMATCHED_S`. -/
theorem claim1_witness :
    (¬ penM [[("A", 1)]] [ec] 0 0
        < min (penUB [[("A", 1)]] [ec] 0 0) (penUS [[("A", 1)]] [ec] 0 0)) ∧
    (¬ penUB [[("A", 1)]] [ec] 0 0 < penUS [[("A", 1)]] [ec] 0 0) ∧
    pathA [[("A", 1)]] [ec] 1 1 = PATH_UNMATCHED_S := by
  have h1 : ¬ penM [[("A", 1)]] [ec] 0 0
      < min (penUB [[("A", 1)]] [ec] 0 0) (penUS [[("A", 1)]] [ec] 0 0) := by
    norm_num +decide [penM, penUB, penUS, dpA, cell_dist, ec, normalizeT,
      cellSum, getW, hasKey, cellKeys]
  have h2 : ¬ penUB [[("A", 1)]] [ec] 0 0 < penUS [[("A", 1)]] [ec] 0 0 := by
    norm_num +decide [penUB, penUS, dpA, cell_dist, ec, normalizeT,
      cellSum, getW, hasKey, cellKeys]
  exact ⟨h1, h2, (claim1_tiebreak [[("A", 1)]] [ec] 0 0).2.2.1 h1 h2⟩

/-! ## levmetric_ocr (src/combination.py lines 107-141) and the plain
Levenshtein distance (src/metrics.py lines 11-36, 50-57) -/

/-- Normalized Generalized Levenshtein Distance: 0 when both sequences are
empty, otherwise `2L/(|A|+|B|+L)` where `L = dp[|A|][|B|]` for the DP matrix
of lines 121-136 (identical to the alignment recurrence `dpA`). -/
def levmetric_ocr (A B : List Cell) : ℚ :=
  if A.length = 0 ∧ B.length = 0 then 0
  else
    let L := dpA A B A.length B.length
    2 * L / (A.length + B.length + L)

/-- The DP matrix of `metrics.levenshtein` (lines 19-34): unit costs, border
rows `dp[0][j] = j`, `dp[i][0] = i`. -/
def dpLev (a b : List Char) : ℕ → ℕ → ℕ
  | 0, j => j
  | i + 1, 0 => i + 1
  | i + 1, j + 1 =>
    min (1 + min (dpLev a b i (j + 1)) (dpLev a b (i + 1) j))
      ((if a.getD i ' ' = b.getD j ' ' then 0 else 1) + dpLev a b i j)

/-- `metrics.levenshtein` with its empty-string early return (lines 16-17);
named `levenshteinStr` here because Mathlib already declares `levenshtein`. -/
def levenshteinStr (a b : List Char) : ℕ :=
  if min a.length b.length = 0 then max a.length b.length
  else dpLev a b a.length b.length

/-- The Cell built for one character of a literal input string:
`Cell({c: 1.0})` (combination.py line 174). -/
def certainCell (c : Char) : Cell := [(String.singleton c, 1)]

theorem cell_dist_certain (c d : Char) :
    cell_dist (certainCell c) (certainCell d) = if c = d then 0 else 1 := by
  by_cases h : c = d
  · subst h
    simp [cell_dist, certainCell, normalizeT, cellSum, getW, hasKey, cellKeys]
  · have hs : ¬ (String.singleton d = String.singleton c) := by
      simp [String.singleton, String.ext_iff]
      exact fun hh => h hh.symm
    rw [if_neg h]
    simp only [cell_dist, certainCell, normalizeT, cellSum, List.map_cons,
      List.map_nil, List.sum_cons, List.sum_nil, getW, hasKey, cellKeys,
      List.mem_cons, List.not_mem_nil, or_false, hs]
    norm_num

/-- `ec` is the certain cell of the gap character. -/
theorem ec_eq_certain : ec = certainCell '@' := rfl

theorem cell_dist_certain_ec (c : Char) (h : c ≠ '@') :
    cell_dist (certainCell c) ec = 1 := by
  rw [ec_eq_certain, cell_dist_certain, if_neg h]

/-- Rearranging the three-way minimum of the two DP recurrences. -/
theorem q_min_helper (a b c d : ℚ) :
    min (1 + a) (min (1 + b) (d + c)) = min (1 + min a b) (d + c) := by
  rw [← min_assoc, min_add_add_left]

/-- The generalized DP matrix over certain gapless cells coincides with the
unit-cost Levenshtein DP matrix. -/
theorem dpA_eq_dpLev (xs ys : List Char)
    (hx : ∀ c ∈ xs, c ≠ '@') (hy : ∀ c ∈ ys, c ≠ '@') :
    ∀ n i j, i + j = n → i ≤ xs.length → j ≤ ys.length →
      dpA (xs.map certainCell) (ys.map certainCell) i j
        = (dpLev xs ys i j : ℚ) := by
  have hgx : ∀ i, i < xs.length →
      (xs.map certainCell).getD i [] = certainCell (xs.getD i ' ') := by
    intro i hi
    rw [List.getD_eq_getElem _ _ (by simpa using hi),
      List.getD_eq_getElem _ _ hi, List.getElem_map]
  have hgy : ∀ j, j < ys.length →
      (ys.map certainCell).getD j [] = certainCell (ys.getD j ' ') := by
    intro j hj
    rw [List.getD_eq_getElem _ _ (by simpa using hj),
      List.getD_eq_getElem _ _ hj, List.getElem_map]
  have hxm : ∀ i, i < xs.length → xs.getD i ' ' ≠ '@' := by
    intro i hi
    rw [List.getD_eq_getElem _ _ hi]
    exact hx _ (List.getElem_mem _)
  have hym : ∀ j, j < ys.length → ys.getD j ' ' ≠ '@' := by
    intro j hj
    rw [List.getD_eq_getElem _ _ hj]
    exact hy _ (List.getElem_mem _)
  intro n
  induction n using Nat.strong_induction_on with
  | _ n ih =>
    intro i j hn hi hj
    match i, j with
    | 0, 0 => simp [dpA, dpLev]
    | 0, j + 1 =>
      have hj' : j < ys.length := hj
      rw [show dpA (xs.map certainCell) (ys.map certainCell) 0 (j + 1)
          = cell_dist ((ys.map certainCell).getD j []) ec
            + dpA (xs.map certainCell) (ys.map certainCell) 0 j from by
        simp [dpA]]
      rw [hgy j hj', cell_dist_certain_ec _ (hym j hj')]
      rw [ih j (by omega) 0 j (by omega) (by omega) (by omega)]
      rw [show dpLev xs ys 0 (j + 1) = j + 1 from by simp [dpLev],
        show dpLev xs ys 0 j = j from by simp [dpLev]]
      push_cast
      ring
    | i + 1, 0 =>
      have hi' : i < xs.length := hi
      rw [show dpA (xs.map certainCell) (ys.map certainCell) (i + 1) 0
          = cell_dist ((xs.map certainCell).getD i []) ec
            + dpA (xs.map certainCell) (ys.map certainCell) i 0 from by
        simp [dpA]]
      rw [hgx i hi', cell_dist_certain_ec _ (hxm i hi')]
      rw [ih i (by omega) i 0 (by omega) (by omega) (by omega)]
      rw [show dpLev xs ys (i + 1) 0 = i + 1 from by simp [dpLev]]
      have hdl : dpLev xs ys i 0 = i := by
        match i with
        | 0 => simp [dpLev]
        | i + 1 => simp [dpLev]
      rw [hdl]
      push_cast
      ring
    | i + 1, j + 1 =>
      have hi' : i < xs.length := hi
      have hj' : j < ys.length := hj
      rw [show dpA (xs.map certainCell) (ys.map certainCell) (i + 1) (j + 1)
          = min (cell_dist ((xs.map certainCell).getD i []) ec
              + dpA (xs.map certainCell) (ys.map certainCell) i (j + 1))
            (min (cell_dist ((ys.map certainCell).getD j []) ec
              + dpA (xs.map certainCell) (ys.map certainCell) (i + 1) j)
              (cell_dist ((xs.map certainCell).getD i [])
                  ((ys.map certainCell).getD j [])
                + dpA (xs.map certainCell) (ys.map certainCell) i j))
          from by simp [dpA]]
      rw [hgx i hi', hgy j hj', cell_dist_certain_ec _ (hxm i hi'),
        cell_dist_certain_ec _ (hym j hj'), cell_dist_certain]
      rw [ih (i + (j + 1)) (by omega) i (j + 1) (by omega) (by omega)
          (by omega),
        ih ((i + 1) + j) (by omega) (i + 1) j (by omega) (by omega)
          (by omega),
        ih (i + j) (by omega) i j (by omega) (by omega) (by omega)]
      rw [show dpLev xs ys (i + 1) (j + 1)
          = min (1 + min (dpLev xs ys i (j + 1)) (dpLev xs ys (i + 1) j))
            ((if xs.getD i ' ' = ys.getD j ' ' then 0 else 1)
              + dpLev xs ys i j) from by simp [dpLev]]
      by_cases hc : xs.getD i ' ' = ys.getD j ' '
      · rw [if_pos hc, if_pos hc]
        push_cast [Nat.cast_min]
        exact q_min_helper _ _ _ _
      · rw [if_neg hc, if_neg hc]
        push_cast [Nat.cast_min]
        exact q_min_helper _ _ _ _

theorem levenshteinStr_eq_dpLev (a b : List Char) :
    levenshteinStr a b = dpLev a b a.length b.length := by
  unfold levenshteinStr
  by_cases h : min a.length b.length = 0
  · rw [if_pos h]
    rcases Nat.min_eq_zero_iff.mp h with ha | hb
    · rw [ha]
      have : dpLev a b 0 b.length = b.length := by simp [dpLev]
      omega
    · rw [hb]
      have : dpLev a b a.length 0 = a.length := by
        match ha : a.length with
        | 0 => simp [dpLev]
        | i + 1 => simp [dpLev]
      omega
  · rw [if_neg h]

/-! ### Claim C4 -/

/-- Counterexample to C4: the one-character literal string `"@"` gives the
certain Cell sequence `[{"@": 1}]`; against the empty sequence,
`levmetric_ocr` is 0 (the gap character costs nothing against the all-gap
cell) while the classic normalized Levenshtein distance `2L/(|A|+|B|+L)` is
1. -/
theorem claim4_counterexample :
    levmetric_ocr (['@'].map certainCell) (([] : List Char).map certainCell)
      = 0 ∧
    2 * (levenshteinStr ['@'] [] : ℚ)
      / (((['@'] : List Char).length : ℚ) + (([] : List Char).length : ℚ)
          + (levenshteinStr ['@'] [] : ℚ)) = 1 ∧
    (0 : ℚ) ≠ 1 := by
  refine ⟨?_, ?_, by norm_num⟩
  · norm_num +decide [levmetric_ocr, dpA, cell_dist, certainCell, ec,
      normalizeT, cellSum, getW, hasKey, cellKeys]
  · norm_num [levenshteinStr]

/-- C4 (amended): for certain Cell sequences whose labels avoid the gap
character `'@'`, `levmetric_ocr` equals the classic normalized Levenshtein
distance `2L/(|A|+|B|+L)` between the corresponding literal strings, with
`L` the plain unit-cost Levenshtein edit distance of `metrics.py`. -/
theorem claim4_levmetric_ocr (xs ys : List Char)
    (hx : ∀ c ∈ xs, c ≠ '@') (hy : ∀ c ∈ ys, c ≠ '@') :
    levmetric_ocr (xs.map certainCell) (ys.map certainCell)
      = 2 * (levenshteinStr xs ys : ℚ)
          / ((xs.length : ℚ) + (ys.length : ℚ)
              + (levenshteinStr xs ys : ℚ)) := by
  unfold levmetric_ocr
  simp only [List.length_map]
  by_cases h : xs.length = 0 ∧ ys.length = 0
  · rw [if_pos h]
    have hz : levenshteinStr xs ys = 0 := by
      unfold levenshteinStr
      rw [if_pos (by omega)]
      omega
    rw [hz, h.1, h.2]
    norm_num
  · rw [if_neg h]
    rw [dpA_eq_dpLev xs ys hx hy (xs.length + ys.length) xs.length ys.length
      rfl le_rfl le_rfl]
    rw [levenshteinStr_eq_dpLev]

/-- Witness for C4 (amended) with the literal strings `"A"` and `"B"`. -/
theorem claim4_witness :
    (∀ c ∈ ['A'], c ≠ '@') ∧ (∀ c ∈ ['B'], c ≠ '@') ∧
    levmetric_ocr (['A'].map certainCell) (['B'].map certainCell)
      = 2 * (levenshteinStr ['A'] ['B'] : ℚ)
          / (((['A'] : List Char).length : ℚ)
              + ((['B'] : List Char).length : ℚ)
              + (levenshteinStr ['A'] ['B'] : ℚ)) :=
  ⟨by decide, by decide, claim4_levmetric_ocr _ _ (by decide) (by decide)⟩

/-! ## Treap (src/treap.py)

The Python stores nodes in an arena (`self.nodes`, children referenced by
index, `-1` for absent) and threads a process-wide random priority through
`add_element`.  We embed the tree reachable from `root` as an inductive tree
(`-1` becomes `nil`); each node carries `element`, the random balancing
`weight`, and the cached aggregates `subtree_sum`/`subtree_cnt`.  The random
priority becomes an explicit argument of `addElement` (the spec §5 requires
the priority source to be injectable; correctness must hold for every
priority sequence). -/

inductive Treap where
  | nil : Treap
  | node (element : ℚ) (weight : ℤ) (subtree_sum : ℚ) (subtree_cnt : ℕ)
      (left : Treap) (right : Treap) : Treap
deriving DecidableEq

def storedSum : Treap → ℚ
  | .nil => 0
  | .node _ _ s _ _ _ => s

def storedCnt : Treap → ℕ
  | .nil => 0
  | .node _ _ _ c _ _ => c

/-- `Treap.update_subtree` (lines 33-45): recompute a node's aggregates from
its own element and the cached aggregates of its children. -/
def updateSubtree (e : ℚ) (w : ℤ) (l r : Treap) : Treap :=
  .node e w (e + storedSum l + storedSum r) (1 + storedCnt l + storedCnt r) l r

/-- `Treap.split` (lines 47-64): split into the subtree of elements `≤ x`
and the subtree of elements `> x` (the node goes right iff `x < element`). -/
def Treap.split : Treap → ℚ → Treap × Treap
  | .nil, _ => (.nil, .nil)
  | .node e w _ _ lc rc, x =>
    if x < e then
      let p := Treap.split lc x
      (p.1, updateSubtree e w p.2 rc)
    else
      let p := Treap.split rc x
      (updateSubtree e w lc p.1, p.2)

/-- `Treap.add_element` / `add_element_internal` (lines 82-113) with the new
node's element and random weight passed explicitly. -/
def addElement (t : Treap) (e : ℚ) (w : ℤ) : Treap :=
  match t with
  | .nil => updateSubtree e w .nil .nil
  | .node e0 w0 s0 c0 l r =>
    if w > w0 then
      let p := Treap.split (.node e0 w0 s0 c0 l r) e
      updateSubtree e w p.1 p.2
    else
      if e < e0 then updateSubtree e0 w0 (addElement l e w) r
      else updateSubtree e0 w0 l (addElement r e w)

/-- A tree built by a sequence of `add_element` calls from the empty treap. -/
def buildTreap (xs : List (ℚ × ℤ)) : Treap :=
  xs.foldl (fun t ew => addElement t ew.1 ew.2) .nil

/-- `Treap.get_lower` (lines 115-129). -/
def getLower : Treap → ℚ → ℕ × ℚ
  | .nil, _ => (0, 0)
  | .node e _ _ _ l r, v =>
    if e < v then
      let p := getLower r v
      (p.1 + storedCnt l + 1, p.2 + storedSum l + e)
    else getLower l v

/-- In-order traversal. -/
def toList : Treap → List ℚ
  | .nil => []
  | .node e _ _ _ l r => toList l ++ e :: toList r

/-- BST property: the in-order traversal is sorted (non-decreasing). -/
def SortedT (t : Treap) : Prop := (toList t).Pairwise (· ≤ ·)

/-- Every node's cached aggregates equal the true sum and count of its
subtree (itself included). -/
def AggOK : Treap → Prop
  | .nil => True
  | .node e _ s c l r =>
      AggOK l ∧ AggOK r ∧ s = e + (toList l).sum + (toList r).sum
        ∧ c = 1 + (toList l).length + (toList r).length

/-- The list of all subtrees (the node arena reachable from the root). -/
def subtreesOf : Treap → List Treap
  | .nil => [.nil]
  | .node e w s c l r => .node e w s c l r :: (subtreesOf l ++ subtreesOf r)

theorem storedSum_eq {t : Treap} (h : AggOK t) :
    storedSum t = (toList t).sum := by
  cases t with
  | nil => simp [storedSum, toList]
  | node e w s c l r =>
    obtain ⟨-, -, hs, -⟩ := h
    simp only [storedSum, toList, List.sum_append, List.sum_cons]
    rw [hs]
    ring

theorem storedCnt_eq {t : Treap} (h : AggOK t) :
    storedCnt t = (toList t).length := by
  cases t with
  | nil => simp [storedCnt, toList]
  | node e w s c l r =>
    obtain ⟨-, -, -, hc⟩ := h
    simp only [storedCnt, toList, List.length_append, List.length_cons]
    rw [hc]
    ring

theorem AggOK_updateSubtree {l r : Treap} (e : ℚ) (w : ℤ)
    (hl : AggOK l) (hr : AggOK r) : AggOK (updateSubtree e w l r) := by
  refine ⟨hl, hr, ?_, ?_⟩
  · rw [storedSum_eq hl, storedSum_eq hr]
  · rw [storedCnt_eq hl, storedCnt_eq hr]

theorem toList_updateSubtree (e : ℚ) (w : ℤ) (l r : Treap) :
    toList (updateSubtree e w l r) = toList l ++ e :: toList r := rfl

theorem sortedT_node {e : ℚ} {w : ℤ} {s : ℚ} {c : ℕ} {l r : Treap}
    (h : SortedT (.node e w s c l r)) :
    SortedT l ∧ SortedT r ∧ (∀ y ∈ toList l, y ≤ e) ∧
      (∀ y ∈ toList r, e ≤ y) := by
  unfold SortedT toList at h
  rw [List.pairwise_append, List.pairwise_cons] at h
  obtain ⟨h1, ⟨h2, h3⟩, h4⟩ := h
  refine ⟨h1, h3, ?_, h2⟩
  intro y hy
  exact h4 y hy e (List.mem_cons_self _ _)

theorem sortedT_node_of {e : ℚ} {w : ℤ} {s : ℚ} {c : ℕ} {l r : Treap}
    (hl : SortedT l) (hr : SortedT r) (hle : ∀ y ∈ toList l, y ≤ e)
    (hge : ∀ y ∈ toList r, e ≤ y) : SortedT (.node e w s c l r) := by
  unfold SortedT toList
  rw [List.pairwise_append, List.pairwise_cons]
  refine ⟨hl, ⟨hge, hr⟩, ?_⟩
  intro a ha b hb
  rcases List.mem_cons.mp hb with rfl | hb
  · exact hle a ha
  · exact le_trans (hle a ha) (hge b hb)

theorem split_toList : ∀ (t : Treap) (x : ℚ),
    toList (t.split x).1 ++ toList (t.split x).2 = toList t := by
  intro t
  induction t with
  | nil => intro x; simp [Treap.split, toList]
  | node e w s c lc rc ihl ihr =>
    intro x
    rw [Treap.split]
    by_cases h : x < e
    · rw [if_pos h]
      simp only [toList_updateSubtree]
      rw [← List.append_assoc, ihl]
      rfl
    · rw [if_neg h]
      simp only [toList_updateSubtree]
      rw [List.append_assoc]
      show toList lc ++ (e :: toList (Treap.split rc x).1
        ++ toList (Treap.split rc x).2) = _
      rw [List.cons_append, ihr]
      rfl

theorem split_AggOK : ∀ (t : Treap) (x : ℚ), AggOK t →
    AggOK (t.split x).1 ∧ AggOK (t.split x).2 := by
  intro t
  induction t with
  | nil => intro x h; exact ⟨trivial, trivial⟩
  | node e w s c lc rc ihl ihr =>
    intro x h
    obtain ⟨hl, hr, -, -⟩ := h
    rw [Treap.split]
    by_cases hx : x < e
    · rw [if_pos hx]
      exact ⟨(ihl x hl).1, AggOK_updateSubtree _ _ (ihl x hl).2 hr⟩
    · rw [if_neg hx]
      exact ⟨AggOK_updateSubtree _ _ hl (ihr x hr).1, (ihr x hr).2⟩

theorem split_sorted {t : Treap} {x : ℚ} (h : SortedT t) :
    SortedT (t.split x).1 ∧ SortedT (t.split x).2 := by
  constructor
  · apply List.Pairwise.sublist _ h
    rw [← split_toList t x]
    exact List.sublist_append_left _ _
  · apply List.Pairwise.sublist _ h
    rw [← split_toList t x]
    exact List.sublist_append_right _ _

theorem split_bounds : ∀ (t : Treap) (x : ℚ), SortedT t →
    (∀ y ∈ toList (t.split x).1, y ≤ x) ∧
    (∀ y ∈ toList (t.split x).2, x < y) := by
  intro t
  induction t with
  | nil => intro x h; simp [Treap.split, toList]
  | node e w s c lc rc ihl ihr =>
    intro x h
    obtain ⟨hsl, hsr, hle, hge⟩ := sortedT_node h
    rw [Treap.split]
    by_cases hx : x < e
    · rw [if_pos hx]
      refine ⟨(ihl x hsl).1, ?_⟩
      intro y hy
      rw [toList_updateSubtree] at hy
      rcases List.mem_append.mp hy with hy | hy
      · exact (ihl x hsl).2 y hy
      · rcases List.mem_cons.mp hy with rfl | hy
        · exact hx
        · exact lt_of_lt_of_le hx (hge y hy)
    · rw [if_neg hx]
      push_neg at hx
      refine ⟨?_, (ihr x hsr).2⟩
      intro y hy
      rw [toList_updateSubtree] at hy
      rcases List.mem_append.mp hy with hy | hy
      · exact le_trans (hle y hy) hx
      · rcases List.mem_cons.mp hy with rfl | hy
        · exact hx
        · exact (ihr x hsr).1 y hy

theorem addElement_toList_perm : ∀ (t : Treap) (e : ℚ) (w : ℤ),
    (toList (addElement t e w)).Perm (e :: toList t) := by
  intro t
  induction t with
  | nil => intro e w; simp [addElement, updateSubtree, toList]
  | node e0 w0 s0 c0 l r ihl ihr =>
    intro e w
    rw [addElement]
    by_cases hw : w > w0
    · rw [if_pos hw]
      rw [toList_updateSubtree]
      have h1 := split_toList (Treap.node e0 w0 s0 c0 l r) e
      have h2 : (toList ((Treap.node e0 w0 s0 c0 l r).split e).1
          ++ e :: toList ((Treap.node e0 w0 s0 c0 l r).split e).2).Perm
          (e :: (toList ((Treap.node e0 w0 s0 c0 l r).split e).1
            ++ toList ((Treap.node e0 w0 s0 c0 l r).split e).2)) :=
        List.perm_middle
      rw [h1] at h2
      exact h2
    · rw [if_neg hw]
      by_cases he : e < e0
      · rw [if_pos he, toList_updateSubtree]
        exact (ihl e w).append_right _
      · rw [if_neg he, toList_updateSubtree]
        have h2 : (toList l ++ e0 :: toList (addElement r e w)).Perm
            (toList l ++ e0 :: (e :: toList r)) :=
          List.Perm.append_left _ ((ihr e w).cons e0)
        have h3 : toList l ++ e0 :: (e :: toList r)
            = (toList l ++ [e0]) ++ e :: toList r := by simp
        have h4 : ((toList l ++ [e0]) ++ e :: toList r).Perm
            (e :: ((toList l ++ [e0]) ++ toList r)) := List.perm_middle
        have h5 : (toList l ++ [e0]) ++ toList r
            = toList l ++ e0 :: toList r := by simp
        rw [h5] at h4
        rw [h3] at h2
        exact h2.trans h4

theorem addElement_sorted : ∀ (t : Treap) (e : ℚ) (w : ℤ),
    SortedT t → SortedT (addElement t e w) := by
  intro t
  induction t with
  | nil =>
    intro e w h
    simp [addElement, updateSubtree, SortedT, toList]
  | node e0 w0 s0 c0 l r ihl ihr =>
    intro e w h
    obtain ⟨hsl, hsr, hle, hge⟩ := sortedT_node h
    rw [addElement]
    by_cases hw : w > w0
    · rw [if_pos hw]
      refine sortedT_node_of (split_sorted h).1 (split_sorted h).2 ?_ ?_
      · exact (split_bounds _ e h).1
      · intro y hy
        exact ((split_bounds _ e h).2 y hy).le
    · rw [if_neg hw]
      by_cases he : e < e0
      · rw [if_pos he]
        refine sortedT_node_of (ihl e w hsl) hsr ?_ hge
        intro y hy
        rcases List.mem_cons.mp
            ((addElement_toList_perm l e w).mem_iff.mp hy) with rfl | hy
        · exact he.le
        · exact hle y hy
      · rw [if_neg he]
        push_neg at he
        refine sortedT_node_of hsl (ihr e w hsr) hle ?_
        intro y hy
        rcases List.mem_cons.mp
            ((addElement_toList_perm r e w).mem_iff.mp hy) with rfl | hy
        · exact he
        · exact hge y hy

theorem addElement_AggOK : ∀ (t : Treap) (e : ℚ) (w : ℤ),
    AggOK t → AggOK (addElement t e w) := by
  intro t
  induction t with
  | nil =>
    intro e w h
    exact AggOK_updateSubtree _ _ trivial trivial
  | node e0 w0 s0 c0 l r ihl ihr =>
    intro e w h
    have hl : AggOK l := h.1
    have hr : AggOK r := h.2.1
    rw [addElement]
    by_cases hw : w > w0
    · rw [if_pos hw]
      exact AggOK_updateSubtree _ _ (split_AggOK _ e h).1 (split_AggOK _ e h).2
    · rw [if_neg hw]
      by_cases he : e < e0
      · rw [if_pos he]
        exact AggOK_updateSubtree _ _ (ihl e w hl) hr
      · rw [if_neg he]
        exact AggOK_updateSubtree _ _ hl (ihr e w hr)

theorem buildTreap_fold_inv : ∀ (xs : List (ℚ × ℤ)) (t : Treap),
    SortedT t → AggOK t →
    SortedT (xs.foldl (fun t ew => addElement t ew.1 ew.2) t) ∧
    AggOK (xs.foldl (fun t ew => addElement t ew.1 ew.2) t) ∧
    (toList (xs.foldl (fun t ew => addElement t ew.1 ew.2) t)).Perm
      (xs.map Prod.fst ++ toList t) := by
  intro xs
  induction xs with
  | nil =>
    intro t hs ha
    exact ⟨hs, ha, by simp⟩
  | cons x rest ih =>
    intro t hs ha
    rw [List.foldl_cons]
    obtain ⟨h1, h2, h3⟩ := ih (addElement t x.1 x.2)
      (addElement_sorted t x.1 x.2 hs) (addElement_AggOK t x.1 x.2 ha)
    refine ⟨h1, h2, ?_⟩
    have h4 : (rest.map Prod.fst ++ toList (addElement t x.1 x.2)).Perm
        (rest.map Prod.fst ++ (x.1 :: toList t)) :=
      List.Perm.append_left _ (addElement_toList_perm t x.1 x.2)
    have h5 : (rest.map Prod.fst ++ x.1 :: toList t).Perm
        (x.1 :: (rest.map Prod.fst ++ toList t)) := List.perm_middle
    have h6 : ((x :: rest).map Prod.fst ++ toList t)
        = x.1 :: (rest.map Prod.fst ++ toList t) := by simp
    rw [h6]
    exact (h3.trans h4).trans h5

theorem buildTreap_sorted (xs : List (ℚ × ℤ)) : SortedT (buildTreap xs) :=
  (buildTreap_fold_inv xs .nil (by simp [SortedT, toList]) trivial).1

theorem buildTreap_AggOK (xs : List (ℚ × ℤ)) : AggOK (buildTreap xs) :=
  (buildTreap_fold_inv xs .nil (by simp [SortedT, toList]) trivial).2.1

theorem buildTreap_perm (xs : List (ℚ × ℤ)) :
    (toList (buildTreap xs)).Perm (xs.map Prod.fst) := by
  have := (buildTreap_fold_inv xs .nil (by simp [SortedT, toList]) trivial).2.2
  simpa [toList] using this

theorem AggOK_subtrees : ∀ (t : Treap), AggOK t →
    ∀ u ∈ subtreesOf t,
      storedSum u = (toList u).sum ∧ storedCnt u = (toList u).length := by
  intro t
  induction t with
  | nil =>
    intro h u hu
    rcases (by simpa [subtreesOf] using hu : u = Treap.nil) with rfl
    simp [storedSum, storedCnt, toList]
  | node e w s c l r ihl ihr =>
    intro h u hu
    obtain ⟨hl, hr, hs, hc⟩ := h
    rcases List.mem_cons.mp hu with rfl | hu
    · have hok : AggOK (Treap.node e w s c l r) := ⟨hl, hr, hs, hc⟩
      exact ⟨storedSum_eq hok, storedCnt_eq hok⟩
    · rcases List.mem_append.mp hu with hu | hu
      · exact ihl hl u hu
      · exact ihr hr u hu

/-! ### Claim C7 -/

/-- C7 (confirmed): after any sequence of `add_element` calls (with any
injected priorities) starting from the empty treap, the in-order traversal
of the tree reachable from the root is sorted, and every reachable subtree's
cached `subtree_sum`/`subtree_cnt` equal the true sum and count of its
elements, the node itself included. -/
theorem claim7_treap_invariant (inserts : List (ℚ × ℤ)) :
    SortedT (buildTreap inserts) ∧
    ∀ u ∈ subtreesOf (buildTreap inserts),
      storedSum u = (toList u).sum ∧ storedCnt u = (toList u).length :=
  ⟨buildTreap_sorted inserts,
    AggOK_subtrees _ (buildTreap_AggOK inserts)⟩

/-- `get_lower` computes the count and sum of elements strictly below `v`
on any tree satisfying the BST and aggregate invariants. -/
theorem getLower_eq : ∀ (t : Treap), SortedT t → AggOK t → ∀ (v : ℚ),
    getLower t v
      = (((toList t).filter (fun y => decide (y < v))).length,
         ((toList t).filter (fun y => decide (y < v))).sum) := by
  intro t
  induction t with
  | nil => intro _ _ v; simp [getLower, toList]
  | node e w s c l r ihl ihr =>
    intro hs ha v
    obtain ⟨hsl, hsr, hle, hge⟩ := sortedT_node hs
    have hal : AggOK l := ha.1
    have har : AggOK r := ha.2.1
    rw [getLower]
    have htl : toList (Treap.node e w s c l r) = toList l ++ e :: toList r :=
      rfl
    rw [htl, List.filter_append]
    by_cases h : e < v
    · rw [if_pos h]
      have hfl : (toList l).filter (fun y => decide (y < v)) = toList l := by
        rw [List.filter_eq_self]
        intro y hy
        simp only [decide_eq_true_eq]
        exact lt_of_le_of_lt (hle y hy) h
      have hfr : (e :: toList r).filter (fun y => decide (y < v))
          = e :: (toList r).filter (fun y => decide (y < v)) := by
        rw [List.filter_cons_of_pos (by simpa using h)]
      rw [hfl, hfr, ihr hsr har v]
      simp only [List.length_append, List.sum_append, List.length_cons,
        List.sum_cons, storedCnt_eq hal, storedSum_eq hal, Prod.mk.injEq]
      constructor
      · omega
      · ring
    · rw [if_neg h]
      push_neg at h
      have hfr : (e :: toList r).filter (fun y => decide (y < v)) = [] := by
        rw [List.filter_eq_nil_iff]
        intro y hy
        simp only [decide_eq_true_eq, not_lt]
        rcases List.mem_cons.mp hy with rfl | hy
        · exact h
        · exact le_trans h (hge y hy)
      rw [hfr, List.append_nil]
      exact ihl hsl hal v

/-- Count of elements below a threshold is monotone in the threshold. -/
theorem filter_lt_length_mono (l : List ℚ) {v1 v2 : ℚ} (h : v1 ≤ v2) :
    (l.filter (fun y => decide (y < v1))).length
      ≤ (l.filter (fun y => decide (y < v2))).length := by
  induction l with
  | nil => simp
  | cons x rest ih =>
    by_cases h1 : x < v1
    · rw [List.filter_cons_of_pos (by simpa using h1),
        List.filter_cons_of_pos (by simpa using lt_of_lt_of_le h1 h)]
      simpa using ih
    · rw [List.filter_cons_of_neg (by simpa using h1)]
      by_cases h2 : x < v2
      · rw [List.filter_cons_of_pos (by simpa using h2)]
        simp only [List.length_cons]
        omega
      · rw [List.filter_cons_of_neg (by simpa using h2)]
        exact ih

/-- Sum of non-negative elements below a threshold is monotone in the
threshold. -/
theorem filter_lt_sum_mono (l : List ℚ) {v1 v2 : ℚ} (h : v1 ≤ v2)
    (hnn : ∀ x ∈ l, 0 ≤ x) :
    (l.filter (fun y => decide (y < v1))).sum
      ≤ (l.filter (fun y => decide (y < v2))).sum := by
  induction l with
  | nil => simp
  | cons x rest ih =>
    have hx : 0 ≤ x := hnn x (List.mem_cons_self _ _)
    have hrest : ∀ y ∈ rest, 0 ≤ y :=
      fun y hy => hnn y (List.mem_cons_of_mem _ hy)
    by_cases h1 : x < v1
    · rw [List.filter_cons_of_pos (by simpa using h1),
        List.filter_cons_of_pos (by simpa using lt_of_lt_of_le h1 h)]
      simp only [List.sum_cons]
      linarith [ih hrest]
    · rw [List.filter_cons_of_neg (by simpa using h1)]
      by_cases h2 : x < v2
      · rw [List.filter_cons_of_pos (by simpa using h2)]
        simp only [List.sum_cons]
        linarith [ih hrest]
      · rw [List.filter_cons_of_neg (by simpa using h2)]
        exact ih hrest

/-! ### Claim C8 -/

/-- C8 (confirmed): for every treap built by `add_element` calls (with any
injected priorities) and query `v`, `get_lower(root, v)` returns exactly the
count and sum of inserted elements strictly below `v`; it returns `(0, 0)`
on the empty tree; the count is monotone non-decreasing in `v`, and so is
the sum when all inserted elements are non-negative; and as soon as `v`
exceeds every inserted element it returns the total count and sum. -/
theorem claim8_get_lower (inserts : List (ℚ × ℤ)) (v v1 v2 vbig : ℚ)
    (h12 : v1 ≤ v2)
    (hnn : ∀ x ∈ inserts.map Prod.fst, 0 ≤ x)
    (hbig : ∀ x ∈ inserts.map Prod.fst, x < vbig) :
    getLower (buildTreap inserts) v
      = (((inserts.map Prod.fst).filter (fun y => decide (y < v))).length,
         ((inserts.map Prod.fst).filter (fun y => decide (y < v))).sum) ∧
    getLower .nil v = (0, 0) ∧
    (getLower (buildTreap inserts) v1).1
      ≤ (getLower (buildTreap inserts) v2).1 ∧
    (getLower (buildTreap inserts) v1).2
      ≤ (getLower (buildTreap inserts) v2).2 ∧
    getLower (buildTreap inserts) vbig
      = ((inserts.map Prod.fst).length, (inserts.map Prod.fst).sum) := by
  have hchar : ∀ u : ℚ, getLower (buildTreap inserts) u
      = (((inserts.map Prod.fst).filter (fun y => decide (y < u))).length,
         ((inserts.map Prod.fst).filter (fun y => decide (y < u))).sum) := by
    intro u
    rw [getLower_eq _ (buildTreap_sorted inserts) (buildTreap_AggOK inserts)]
    have hperm := (buildTreap_perm inserts).filter
      (fun y => decide (y < u))
    rw [hperm.length_eq, hperm.sum_eq]
  refine ⟨hchar v, rfl, ?_, ?_, ?_⟩
  · rw [hchar v1, hchar v2]
    exact filter_lt_length_mono _ h12
  · rw [hchar v1, hchar v2]
    exact filter_lt_sum_mono _ h12 hnn
  · rw [hchar vbig]
    have : (inserts.map Prod.fst).filter (fun y => decide (y < vbig))
        = inserts.map Prod.fst := by
      rw [List.filter_eq_self]
      intro y hy
      simpa using hbig y hy
    rw [this]

/-- Witness for C8 at the concrete inserts `[3, 1, 2]` (priorities 7, 5, 9)
with `v = 2`, `v1 = 1`, `v2 = 3`, `vbig = 10`. -/
theorem claim8_witness :
    ((1 : ℚ) ≤ 3) ∧
    (∀ x ∈ ([(3, 7), (1, 5), (2, 9)] : List (ℚ × ℤ)).map Prod.fst, 0 ≤ x) ∧
    (∀ x ∈ ([(3, 7), (1, 5), (2, 9)] : List (ℚ × ℤ)).map Prod.fst,
      x < 10) ∧
    (getLower (buildTreap [(3, 7), (1, 5), (2, 9)]) 2
      = ((([(3, 7), (1, 5), (2, 9)] : List (ℚ × ℤ)).map Prod.fst |>.filter
            (fun y => decide (y < 2))).length,
         (([(3, 7), (1, 5), (2, 9)] : List (ℚ × ℤ)).map Prod.fst |>.filter
            (fun y => decide (y < 2))).sum) ∧
     getLower .nil 2 = (0, 0) ∧
     (getLower (buildTreap [(3, 7), (1, 5), (2, 9)]) 1).1
       ≤ (getLower (buildTreap [(3, 7), (1, 5), (2, 9)]) 3).1 ∧
     (getLower (buildTreap [(3, 7), (1, 5), (2, 9)]) 1).2
       ≤ (getLower (buildTreap [(3, 7), (1, 5), (2, 9)]) 3).2 ∧
     getLower (buildTreap [(3, 7), (1, 5), (2, 9)]) 10
       = ((([(3, 7), (1, 5), (2, 9)] : List (ℚ × ℤ)).map Prod.fst).length,
          (([(3, 7), (1, 5), (2, 9)] : List (ℚ × ℤ)).map Prod.fst).sum)) := by
  refine ⟨by norm_num, ?_, ?_, ?_⟩
  · intro x hx
    simp only [List.map_cons, List.map_nil, List.mem_cons,
      List.not_mem_nil, or_false] at hx
    rcases hx with rfl | rfl | rfl <;> norm_num
  · intro x hx
    simp only [List.map_cons, List.map_nil, List.mem_cons,
      List.not_mem_nil, or_false] at hx
    rcases hx with rfl | rfl | rfl <;> norm_num
  · refine claim8_get_lower [(3, 7), (1, 5), (2, 9)] 2 1 3 10 (by norm_num)
      ?_ ?_
    · intro x hx
      simp only [List.map_cons, List.map_nil, List.mem_cons,
        List.not_mem_nil, or_false] at hx
      rcases hx with rfl | rfl | rfl <;> norm_num
    · intro x hx
      simp only [List.map_cons, List.map_nil, List.mem_cons,
        List.not_mem_nil, or_false] at hx
      rcases hx with rfl | rfl | rfl <;> norm_num

/-! ## Sequence structures (src/combination_with_estimation.py lines 4-70)

`TreapBasedSequenceStructure` stores each history in a `Treap`
(`get_sum` reads the root's `subtree_sum`, or 0 when there is no root, which
is `storedSum`); `ListBasedSequenceStructure` keeps the raw list of inserted
elements plus a running sum. -/

structure ListSeq where
  elements : List ℚ
  sum : ℚ

/-- `ListBasedSequenceStructure.__init__`. -/
def ListSeq.empty : ListSeq := ⟨[], 0⟩

/-- `ListBasedSequenceStructure.insert` (lines 49-54). -/
def ListSeq.insert (t : ListSeq) (e : ℚ) : ListSeq :=
  ⟨t.elements ++ [e], t.sum + e⟩

/-- A list structure built by a sequence of inserts. -/
def listSeqOf (l : List ℚ) : ListSeq := l.foldl ListSeq.insert ListSeq.empty

/-- One history's contribution to `ret` in
`TreapBasedSequenceStructure.get_modelling_sum` (lines 30-32):
`s * lc - n * ls` with `s = get_sum()` and
`(lc, ls) = get_lower(root, s / n)`. -/
def treapHistTerm (t : Treap) (n : ℚ) : ℚ :=
  storedSum t * ((getLower t (storedSum t / n)).1 : ℚ)
    - n * (getLower t (storedSum t / n)).2

/-- One history's total contribution, over all sample indices `i`, to the
`d[i]` accumulators of `ListBasedSequenceStructure.get_modelling_sum`
(lines 63-65): `Σ_i |s - n * e_i|`. -/
def listHistTerm (q : ListSeq) (n : ℚ) : ℚ :=
  (q.elements.map (fun e => |q.sum - n * e|)).sum

theorem listSeqOf_spec (l : List ℚ) :
    (listSeqOf l).elements = l ∧ (listSeqOf l).sum = l.sum := by
  have main : ∀ (l : List ℚ) (acc : ListSeq),
      (l.foldl ListSeq.insert acc).elements = acc.elements ++ l ∧
      (l.foldl ListSeq.insert acc).sum = acc.sum + l.sum := by
    intro l
    induction l with
    | nil => intro acc; simp
    | cons x rest ih =>
      intro acc
      rw [List.foldl_cons]
      obtain ⟨h1, h2⟩ := ih (acc.insert x)
      constructor
      · rw [h1]
        simp [ListSeq.insert]
      · rw [h2]
        simp [ListSeq.insert]
        ring
  obtain ⟨h1, h2⟩ := main l ListSeq.empty
  unfold listSeqOf
  constructor
  · rw [h1]; simp [ListSeq.empty]
  · rw [h2]; simp [ListSeq.empty]

/-- Splitting a mapped sum along a filter. -/
theorem sum_map_filter_split (l : List ℚ) (p : ℚ → Bool) (f : ℚ → ℚ) :
    (l.map f).sum
      = ((l.filter p).map f).sum + ((l.filter (fun e => ! p e)).map f).sum := by
  induction l with
  | nil => simp
  | cons x rest ih =>
    by_cases h : p x
    · rw [List.filter_cons_of_pos h, List.filter_cons_of_neg (by simp [h])]
      simp only [List.map_cons, List.sum_cons, ih]
      ring
    · rw [List.filter_cons_of_neg (by simpa using h),
        List.filter_cons_of_pos (by simpa using h)]
      simp only [List.map_cons, List.sum_cons, ih]
      ring

/-- Counting along a filter and its complement. -/
theorem length_filter_split (l : List ℚ) (p : ℚ → Bool) :
    (l.filter p).length + (l.filter (fun e => ! p e)).length = l.length := by
  induction l with
  | nil => simp
  | cons x rest ih =>
    by_cases h : p x
    · rw [List.filter_cons_of_pos h, List.filter_cons_of_neg (by simp [h])]
      simp only [List.length_cons]
      omega
    · rw [List.filter_cons_of_neg (by simpa using h),
        List.filter_cons_of_pos (by simpa using h)]
      simp only [List.length_cons]
      omega

/-- Summing along a filter and its complement. -/
theorem sum_filter_split (l : List ℚ) (p : ℚ → Bool) :
    (l.filter p).sum + (l.filter (fun e => ! p e)).sum = l.sum := by
  induction l with
  | nil => simp
  | cons x rest ih =>
    by_cases h : p x
    · rw [List.filter_cons_of_pos h, List.filter_cons_of_neg (by simp [h])]
      simp only [List.sum_cons]
      linarith
    · rw [List.filter_cons_of_neg (by simpa using h),
        List.filter_cons_of_pos (by simpa using h)]
      simp only [List.sum_cons]
      linarith

/-- Sum of an affine map over a list. -/
theorem sum_map_affine (l : List ℚ) (a b : ℚ) :
    (l.map (fun e => a - b * e)).sum = (l.length : ℚ) * a - b * l.sum := by
  induction l with
  | nil => simp
  | cons x rest ih =>
    simp only [List.map_cons, List.sum_cons, List.length_cons, ih]
    push_cast
    ring

/-- The closed form `s*lc - n*ls` is half the sum of `|s - n*e_i|`: for a
non-empty list with `n` elements and sum `s`, where `lc`/`ls` count and sum
the elements strictly below the mean `s/n`. -/
theorem abs_dev_closed_form (l : List ℚ) (hne : l ≠ []) :
    l.sum
        * (((l.filter
          (fun e => decide (e < l.sum / (l.length : ℚ)))).length : ℚ))
      - (l.length : ℚ)
        * (l.filter (fun e => decide (e < l.sum / (l.length : ℚ)))).sum
    = (l.map (fun e => |l.sum - (l.length : ℚ) * e|)).sum / 2 := by
  have hn : (0 : ℚ) < (l.length : ℚ) := by
    have : 0 < l.length := List.length_pos.mpr hne
    exact_mod_cast this
  set n : ℚ := (l.length : ℚ) with hn_def
  set s : ℚ := l.sum with hs_def
  set P : ℚ → Bool := fun e => decide (e < s / n) with hP_def
  have hlt : ∀ e : ℚ, P e = true ↔ n * e < s := by
    intro e
    rw [hP_def]
    simp only [decide_eq_true_eq]
    rw [lt_div_iff₀ hn]
    constructor <;> intro h <;> linarith
  have habs1 : ∀ e ∈ l.filter P, |s - n * e| = s - n * e := by
    intro e he
    have := (hlt e).mp (List.of_mem_filter he)
    exact abs_of_pos (by linarith)
  have habs2 : ∀ e ∈ l.filter (fun e => ! P e), |s - n * e| = n * e - s := by
    intro e he
    have hmem := List.of_mem_filter he
    have : ¬ (P e = true) := by simpa using hmem
    have hge : s ≤ n * e := by
      by_contra hcon
      exact this ((hlt e).mpr (by linarith))
    rw [abs_of_nonpos (by linarith)]
    ring
  have hsplit := sum_map_filter_split l P (fun e => |s - n * e|)
  have hm1 : (l.filter P).map (fun e => |s - n * e|)
      = (l.filter P).map (fun e => s - n * e) :=
    List.map_congr_left habs1
  have hm2 : (l.filter (fun e => ! P e)).map (fun e => |s - n * e|)
      = (l.filter (fun e => ! P e)).map (fun e => (-s) - (-n) * e) := by
    refine List.map_congr_left (fun e he => ?_)
    rw [habs2 e he]
    ring
  rw [hm1, hm2, sum_map_affine, sum_map_affine] at hsplit
  have hlen := length_filter_split l P
  have hsum := sum_filter_split l P
  have hlenq : ((l.filter P).length : ℚ)
      + ((l.filter (fun e => ! P e)).length : ℚ) = n := by
    rw [hn_def]
    exact_mod_cast hlen
  have e1 : ((l.filter (fun e => ! P e)).length : ℚ)
      = n - ((l.filter P).length : ℚ) := by linarith
  have e2 : (l.filter (fun e => ! P e)).sum = s - (l.filter P).sum := by
    rw [hs_def]
    linarith [hsum]
  rw [e1, e2] at hsplit
  rw [hsplit]
  ring

/-! ### Claim C2 -/

/-- C2 (confirmed): for every non-empty value list `e_1..e_n` with sum `s`,
the closed form `s*lc - n*ls` over the values strictly below the mean `s/n`
equals half of `Σ_i |s - n*e_i|`; consequently the per-history quantity of
`TreapBasedSequenceStructure.get_modelling_sum` divided by `n*(n+1)` equals
the per-history quantity of `ListBasedSequenceStructure.get_modelling_sum`
(summed over all sample indices) divided by `2*n*(n+1)`, before the final
normalization, whenever the treap was built from the same values (any
priorities). -/
theorem claim2_modelling_sum (l : List ℚ) (ws : List ℤ) (hne : l ≠ [])
    (hw : ws.length = l.length) :
    (l.sum
        * (((l.filter
          (fun e => decide (e < l.sum / (l.length : ℚ)))).length : ℚ))
      - (l.length : ℚ)
        * (l.filter (fun e => decide (e < l.sum / (l.length : ℚ)))).sum
      = (l.map (fun e => |l.sum - (l.length : ℚ) * e|)).sum / 2) ∧
    treapHistTerm (buildTreap (l.zip ws)) (l.length : ℚ)
        / ((l.length : ℚ) * ((l.length : ℚ) + 1))
      = listHistTerm (listSeqOf l) (l.length : ℚ)
        / (2 * (l.length : ℚ) * ((l.length : ℚ) + 1)) := by
  have hid := abs_dev_closed_form l hne
  refine ⟨hid, ?_⟩
  have hmapfst : (l.zip ws).map Prod.fst = l :=
    List.map_fst_zip l ws (by omega)
  have hperm : (toList (buildTreap (l.zip ws))).Perm l := by
    have := buildTreap_perm (l.zip ws)
    rw [hmapfst] at this
    exact this
  have hsum : storedSum (buildTreap (l.zip ws)) = l.sum := by
    rw [storedSum_eq (buildTreap_AggOK _), hperm.sum_eq]
  have hchar := getLower_eq (buildTreap (l.zip ws)) (buildTreap_sorted _)
    (buildTreap_AggOK _) (l.sum / (l.length : ℚ))
  have hpf := hperm.filter (fun y => decide (y < l.sum / (l.length : ℚ)))
  unfold treapHistTerm
  rw [hsum, hchar]
  simp only []
  rw [hpf.length_eq, hpf.sum_eq]
  unfold listHistTerm
  rw [(listSeqOf_spec l).1, (listSeqOf_spec l).2]
  rw [hid, div_div]
  congr 1
  ring

/-- Witness for C2 at the concrete history `[1, 3]` with priorities
`[4, 6]`. -/
theorem claim2_witness :
    (([1, 3] : List ℚ) ≠ []) ∧
    (([(4 : ℤ), 6]).length = ([1, 3] : List ℚ).length) ∧
    ((([1, 3] : List ℚ).sum
        * (((([1, 3] : List ℚ).filter (fun e => decide
            (e < ([1, 3] : List ℚ).sum
              / ((([1, 3] : List ℚ).length : ℚ))))).length : ℚ))
      - ((([1, 3] : List ℚ).length : ℚ))
        * (([1, 3] : List ℚ).filter (fun e => decide
            (e < ([1, 3] : List ℚ).sum
              / ((([1, 3] : List ℚ).length : ℚ))))).sum
      = (([1, 3] : List ℚ).map (fun e => |([1, 3] : List ℚ).sum
          - ((([1, 3] : List ℚ).length : ℚ)) * e|)).sum / 2) ∧
    treapHistTerm (buildTreap (([1, 3] : List ℚ).zip [(4 : ℤ), 6]))
        ((([1, 3] : List ℚ).length : ℚ))
        / (((([1, 3] : List ℚ).length : ℚ))
            * ((([1, 3] : List ℚ).length : ℚ) + 1))
      = listHistTerm (listSeqOf ([1, 3] : List ℚ))
          ((([1, 3] : List ℚ).length : ℚ))
        / (2 * ((([1, 3] : List ℚ).length : ℚ))
            * ((([1, 3] : List ℚ).length : ℚ) + 1))) := by
  refine ⟨by simp, rfl, ?_⟩
  exact claim2_modelling_sum [1, 3] [4, 6] (by simp) rfl

/-! ## Alignment (src/combination.py lines 144-258)

The class state is `base` (None until the first `add_string`) and
`base_weight`; `self.es = '@'` and `self.ec = Cell({'@': 1.0}) = ec` are
fixed constants, `self.ew` is the empty-weight parameter.  A Python
exception would leave the result unavailable; the embedding of
`get_string_result` returns `Option` so that "raises" is `none`. -/

inductive AInput where
  | str (s : String)
  | cells (cs : List Cell)

/-- Line 174: a literal string becomes a sequence of certain cells, a cell
sequence is cloned (a value copy here). -/
def convertInput : AInput → List Cell
  | .str s => s.data.map certainCell
  | .cells cs => cs

structure AlignmentState where
  base : Option (List Cell)
  base_weight : ℚ
  ew : ℚ

/-- `Alignment.__init__` (lines 148-158); the class is named `Alignment` in
the source, `AlignmentState` here (Mathlib already declares `Alignment`). -/
def AlignmentState.init (empty_weight : ℚ) : AlignmentState := ⟨none, 0, empty_weight⟩

/-- The backtracking loop (lines 226-241), emitting the new base in reverse
order (the source appends while walking back and reverses afterwards).  On
the DP borders the recorded label is forced (`PATH_UNMATCHED_BASE` on the
left column, `PATH_UNMATCHED_S` on the top row, by lines 199-205), which the
index patterns reflect; in the interior the stored label is inspected. -/
def backtrack (base s : List Cell) (bw w : ℚ) : ℕ → ℕ → List Cell
  | 0, 0 => []
  | i + 1, 0 =>
    merge_cells (base.getD i []) ec bw w :: backtrack base s bw w i 0
  | 0, j + 1 =>
    merge_cells ec (s.getD j []) bw w :: backtrack base s bw w 0 j
  | i + 1, j + 1 =>
    if pathA base s (i + 1) (j + 1) = PATH_MATCHED then
      merge_cells (base.getD i []) (s.getD j []) bw w
        :: backtrack base s bw w i j
    else if pathA base s (i + 1) (j + 1) = PATH_UNMATCHED_BASE then
      merge_cells (base.getD i []) ec bw w :: backtrack base s bw w i (j + 1)
    else
      merge_cells ec (s.getD j []) bw w :: backtrack base s bw w (i + 1) j
termination_by i j => i + j

/-- `Alignment.add_string` (lines 169-245). -/
def AlignmentState.add_string (st : AlignmentState) (inp : AInput) (weight : ℚ) :
    AlignmentState :=
  let s0 := convertInput inp
  let s := if s0.isEmpty then [ec] else s0
  match st.base with
  | none => { st with base := some (s.map normalizeT), base_weight := weight }
  | some base =>
    { st with
      base := some ((backtrack base s st.base_weight weight
        base.length s.length).reverse)
      base_weight := st.base_weight + weight }

/-- Python's substring test `k in mask` for strings. -/
def substrB (needle hay : String) : Bool := decide (needle.data <:+: hay.data)

/-- Insertion into a list sorted by Python tuple order (key first, then
value), as produced by `sorted(self.vars.items())`. -/
def insertSortedItem (kv : String × ℚ) :
    List (String × ℚ) → List (String × ℚ)
  | [] => [kv]
  | kv0 :: rest =>
    if kv.1 < kv0.1 ∨ (kv.1 = kv0.1 ∧ kv.2 ≤ kv0.2) then kv :: kv0 :: rest
    else kv0 :: insertSortedItem kv rest

/-- `sorted(self.vars.items())`. -/
def sortItems (c : Cell) : List (String × ℚ) := c.foldr insertSortedItem []

/-- The scanning loop of `best_key_not_from` (lines 50-63): skip keys that
occur in the exclusion mask, keep the first strict improvement over the
running best value. -/
def bknf_loop (mask : String) :
    List (String × ℚ) → String → ℚ → String
  | [], ret, _ => ret
  | kv :: rest, ret, best_value =>
    if substrB kv.1 mask then bknf_loop mask rest ret best_value
    else if best_value < kv.2 then bknf_loop mask rest kv.1 kv.2
    else bknf_loop mask rest ret best_value

/-- `Cell.best_key_not_from` (lines 50-63): starts from the sentinel `""`
and `best_value = -1.0`. -/
def best_key_not_from (c : Cell) (mask : String) : String :=
  bknf_loop mask (sortItems c) "" (-1)

/-- Dict lookup raising `KeyError` on an absent key. -/
def dlookup : Cell → String → Option ℚ
  | [], _ => none
  | kv :: rest, k => if kv.1 = k then some kv.2 else dlookup rest k

/-- One loop iteration of `get_string_result` (lines 252-257): `none` is a
`KeyError` on `cell.vars[best_nonempty]` (shown impossible below). -/
def cellResult (c : Cell) (ew : ℚ) : Option String :=
  let best := best_key_not_from c "@"
  match (if best = "" then some 0 else dlookup c best : Option ℚ) with
  | none => none
  | some best_score =>
    let empty_score := if hasKey c "@" then getW c "@" else 0
    some (if empty_score * ew < best_score then best else "")

def goCells : List Cell → ℚ → Option String
  | [], _ => some ""
  | c :: rest, ew =>
    match cellResult c ew, goCells rest ew with
    | some piece, some restS => some (piece ++ restS)
    | _, _ => none

/-- `Alignment.get_string_result` (lines 247-258): iterating `self.base`
raises a `TypeError` when `base` is still `None`. -/
def AlignmentState.get_string_result (st : AlignmentState) : Option String :=
  match st.base with
  | none => none
  | some cells => goCells cells st.ew

/-! ## AlignmentWithEstimation (src/combination_with_estimation.py)

The class receives a `SequenceStructure` class; its `add_string` only uses
construction (`SequenceStructure()`) and `insert`, which a `SeqOps`
parameter provides.  `Y` is the per-position/per-symbol dict of histories.
The source indexes `Y[i][c]` and raises `KeyError` when a symbol is missing
(possible only for inputs that violate the class's stated same-alphabet
assumption); the embedded history update leaves the dict unchanged in that
unreachable case — no claim below inspects `Y`. -/

structure SeqOps (σ : Type) where
  empty : σ
  insert : σ → ℚ → σ

def ydictSet {σ : Type} (d : List (String × σ)) (k : String) (v : σ) :
    List (String × σ) :=
  if (d.map Prod.fst).contains k then
    d.map (fun kv => if kv.1 = k then (k, v) else kv)
  else d ++ [(k, v)]

def ylookup {σ : Type} : List (String × σ) → String → Option σ
  | [], _ => none
  | kv :: rest, k => if kv.1 = k then some kv.2 else ylookup rest k

/-- `Y[i][c].insert(x)`: update the history stored at key `k` (`KeyError`
when absent in the source; unchanged here, see the section comment). -/
def yInsertAt {σ : Type} (ops : SeqOps σ) (d : List (String × σ))
    (k : String) (x : ℚ) : List (String × σ) :=
  match ylookup d k with
  | some h => ydictSet d k (ops.insert h x)
  | none => d

/-- A fresh history holding `n` zeros
(`for _ in range(n): insert(0.0)`). -/
def nZeros {σ : Type} (ops : SeqOps σ) : ℕ → σ
  | 0 => ops.empty
  | n + 1 => ops.insert (nZeros ops n) 0

/-- `n` zero-inserts into the history stored at `k`. -/
def yInsertZeros {σ : Type} (ops : SeqOps σ) (d : List (String × σ))
    (k : String) : ℕ → List (String × σ)
  | 0 => d
  | n + 1 => yInsertAt ops (yInsertZeros ops d k n) k 0

/-- `''.join(list(cell.vars.keys()))`, iterated by the callers character by
character. -/
def joinKeys (c : Cell) : List Char :=
  (cellKeys c).foldl (fun acc k => acc ++ k.data) []

structure AWE (σ : Type) where
  base : Option (List Cell)
  base_samples : ℕ
  Y : List (List (String × σ))
  alphabet : Option (List Char)
  ew : ℚ

/-- `AlignmentWithEstimation.__init__` (lines 83-93); `Y = None` initially
in the source, modelled by the empty table since `Y` is only read once
`base` is set. -/
def AWE.init (σ : Type) (empty_weight : ℚ) : AWE σ :=
  ⟨none, 0, [], none, empty_weight⟩

/-- The `Y` update of a `PATH_MATCHED` step (lines 192-194). -/
def updYMatched {σ : Type} (ops : SeqOps σ) (y : List (String × σ))
    (scell : Cell) : List (String × σ) :=
  scell.foldl (fun y kv => yInsertAt ops y kv.1 kv.2) y

/-- The `Y` update of a `PATH_UNMATCHED_BASE` step (lines 200-207). -/
def updYBase {σ : Type} (ops : SeqOps σ) (y : List (String × σ))
    (alphabet : Option (List Char)) : List (String × σ) :=
  match alphabet with
  | none => yInsertAt ops y "@" 1
  | some al =>
    yInsertAt ops
      (al.foldl (fun y ch =>
        if ch ≠ '@' then yInsertAt ops y (String.singleton ch) 0 else y) y)
      "@" 1

/-- The fresh `Y` entry of a `PATH_UNMATCHED_S` step (lines 212-225). -/
def newYS {σ : Type} (ops : SeqOps σ) (scell : Cell)
    (alphabet : Option (List Char)) (base_samples : ℕ) :
    List (String × σ) :=
  let y0 := scell.foldl (fun y kv => ydictSet y kv.1 ops.empty) []
  let y1 := match alphabet with
    | none => yInsertAt ops y0 "@" 1
    | some al =>
      yInsertAt ops
        (al.foldl (fun y ch =>
          if ch ≠ '@' then yInsertZeros ops y (String.singleton ch)
            base_samples
          else y) y0)
        "@" 1
  scell.foldl (fun y kv => yInsertAt ops y kv.1 kv.2) y1

/-- The backtracking loop of `AlignmentWithEstimation.add_string`
(lines 183-228), building `new_base` and `new_Y` in reverse order. -/
def backtrackE {σ : Type} (ops : SeqOps σ) (base s : List Cell)
    (Y : List (List (String × σ))) (alphabet : Option (List Char))
    (bs : ℕ) : ℕ → ℕ → List Cell × List (List (String × σ))
  | 0, 0 => ([], [])
  | i + 1, 0 =>
    let p := backtrackE ops base s Y alphabet bs i 0
    (merge_cells (base.getD i []) ec (bs : ℚ) 1 :: p.1,
      updYBase ops (Y.getD i []) alphabet :: p.2)
  | 0, j + 1 =>
    let p := backtrackE ops base s Y alphabet bs 0 j
    (merge_cells ec (s.getD j []) (bs : ℚ) 1 :: p.1,
      newYS ops (s.getD j []) alphabet bs :: p.2)
  | i + 1, j + 1 =>
    if pathA base s (i + 1) (j + 1) = PATH_MATCHED then
      let p := backtrackE ops base s Y alphabet bs i j
      (merge_cells (base.getD i []) (s.getD j []) (bs : ℚ) 1 :: p.1,
        updYMatched ops (Y.getD i []) (s.getD j []) :: p.2)
    else if pathA base s (i + 1) (j + 1) = PATH_UNMATCHED_BASE then
      let p := backtrackE ops base s Y alphabet bs i (j + 1)
      (merge_cells (base.getD i []) ec (bs : ℚ) 1 :: p.1,
        updYBase ops (Y.getD i []) alphabet :: p.2)
    else
      let p := backtrackE ops base s Y alphabet bs (i + 1) j
      (merge_cells ec (s.getD j []) (bs : ℚ) 1 :: p.1,
        newYS ops (s.getD j []) alphabet bs :: p.2)
termination_by i j => i + j

/-- `AlignmentWithEstimation.add_string` (lines 95-233). -/
def AWE.add_string {σ : Type} (ops : SeqOps σ) (st : AWE σ)
    (inp : AInput) : AWE σ :=
  let s0 := convertInput inp
  let empty_input := s0.isEmpty
  -- lines 103-111: an empty input becomes one gap cell, backfilled with
  -- zero-weight entries for known non-gap alphabet symbols
  let s : List Cell :=
    if empty_input then
      match st.alphabet with
      | some al =>
        [al.foldl (fun c0 ch =>
          if ch ≠ '@' then dictSet c0 (String.singleton ch) 0 else c0) ec]
      | none => [ec]
    else s0
  match st.base with
  | none =>
    -- lines 113-128: first input seeds base, Y and (if non-empty) alphabet
    let newBase := s.map normalizeT
    let Y0 := newBase.map (fun cell =>
      cell.foldl (fun y kv => ydictSet y kv.1 (ops.insert ops.empty kv.2))
        [])
    { st with
      base := some newBase
      base_samples := 1
      Y := Y0
      alphabet := if empty_input then st.alphabet
        else some (joinKeys (s0.headD [])) }
  | some base =>
    -- lines 130-139: a first non-empty input fixes the alphabet and
    -- backfills Y with zero histories for the newly known symbols
    let fixNow : Bool := ¬ empty_input ∧ st.alphabet = none
    let alphaNew : Option (List Char) :=
      if fixNow then some (joinKeys (s0.headD [])) else st.alphabet
    let Y1 : List (List (String × σ)) :=
      if fixNow then
        st.Y.map (fun y =>
          (joinKeys (s0.headD [])).foldl (fun y ch =>
            if ch ≠ '@' then
              match ylookup y (String.singleton ch) with
              | none =>
                ydictSet y (String.singleton ch) (nZeros ops st.base_samples)
              | some _ => y
            else y) y)
      else st.Y
    let p := backtrackE ops base s Y1 alphaNew st.base_samples
      base.length s.length
    { st with
      base := some p.1.reverse
      base_samples := st.base_samples + 1
      Y := p.2.reverse
      alphabet := alphaNew }

/-- `AlignmentWithEstimation.get_string_result` (lines 235-246), textually
identical to `Alignment.get_string_result`. -/
def AWE.get_string_result {σ : Type} (st : AWE σ) : Option String :=
  match st.base with
  | none => none
  | some cells => goCells cells st.ew

/-! ### get_string_result never fails on a seeded base -/

theorem bknf_loop_mem (mask : String) :
    ∀ (items : List (String × ℚ)) (ret : String) (bv : ℚ),
    bknf_loop mask items ret bv = ret ∨
      bknf_loop mask items ret bv ∈ items.map Prod.fst := by
  intro items
  induction items with
  | nil => intro ret bv; exact Or.inl rfl
  | cons kv rest ih =>
    intro ret bv
    rw [bknf_loop]
    by_cases h1 : substrB kv.1 mask
    · rw [if_pos h1]
      rcases ih ret bv with h | h
      · exact Or.inl h
      · exact Or.inr (List.mem_cons_of_mem _ h)
    · rw [if_neg h1]
      by_cases h2 : bv < kv.2
      · rw [if_pos h2]
        rcases ih kv.1 kv.2 with h | h
        · right
          rw [h]
          simp
        · exact Or.inr (List.mem_cons_of_mem _ h)
      · rw [if_neg h2]
        rcases ih ret bv with h | h
        · exact Or.inl h
        · exact Or.inr (List.mem_cons_of_mem _ h)

theorem mem_insertSortedItem {kv' kv : String × ℚ} :
    ∀ {l : List (String × ℚ)},
    kv' ∈ insertSortedItem kv l → kv' = kv ∨ kv' ∈ l := by
  intro l
  induction l with
  | nil =>
    intro h
    rw [insertSortedItem, List.mem_singleton] at h
    exact Or.inl h
  | cons kv0 rest ih =>
    intro h
    rw [insertSortedItem] at h
    by_cases hc : kv.1 < kv0.1 ∨ (kv.1 = kv0.1 ∧ kv.2 ≤ kv0.2)
    · rw [if_pos hc] at h
      rcases List.mem_cons.mp h with rfl | h
      · exact Or.inl rfl
      · exact Or.inr h
    · rw [if_neg hc] at h
      rcases List.mem_cons.mp h with rfl | h
      · exact Or.inr (List.mem_cons_self _ _)
      · rcases ih h with h | h
        · exact Or.inl h
        · exact Or.inr (List.mem_cons_of_mem _ h)

theorem mem_sortItems {kv : String × ℚ} :
    ∀ {c : Cell}, kv ∈ sortItems c → kv ∈ c := by
  intro c
  induction c with
  | nil => intro h; simp [sortItems] at h
  | cons kv0 rest ih =>
    intro h
    rw [sortItems, List.foldr_cons] at h
    rcases mem_insertSortedItem h with rfl | h
    · exact List.mem_cons_self _ _
    · exact List.mem_cons_of_mem _ (ih h)

theorem dlookup_isSome {c : Cell} {k : String} (h : k ∈ cellKeys c) :
    (dlookup c k).isSome := by
  induction c with
  | nil => simp [cellKeys] at h
  | cons kv rest ih =>
    rw [dlookup]
    by_cases hh : kv.1 = k
    · rw [if_pos hh]; rfl
    · rw [if_neg hh]
      rcases (by simpa [cellKeys] using h : k = kv.1 ∨ k ∈ cellKeys rest)
        with h | h
      · exact absurd h.symm hh
      · exact ih h

theorem cellResult_isSome (c : Cell) (ew : ℚ) : (cellResult c ew).isSome := by
  rw [cellResult]
  by_cases hb : best_key_not_from c "@" = ""
  · rw [if_pos hb]
    rfl
  · rw [if_neg hb]
    have hmem : best_key_not_from c "@" ∈ cellKeys c := by
      rw [best_key_not_from]
      rw [best_key_not_from] at hb
      rcases bknf_loop_mem "@" (sortItems c) "" (-1) with h | h
      · exact absurd h hb
      · rcases List.mem_map.mp h with ⟨kv, hkv, hfst⟩
        rw [← hfst]
        exact List.mem_map_of_mem Prod.fst (mem_sortItems hkv)
    have := dlookup_isSome hmem
    match hd : dlookup c (best_key_not_from c "@") with
    | some v => rfl
    | none => rw [hd] at this; simp at this

theorem goCells_isSome : ∀ (cells : List Cell) (ew : ℚ),
    (goCells cells ew).isSome := by
  intro cells
  induction cells with
  | nil => intro ew; rfl
  | cons c rest ih =>
    intro ew
    rw [goCells]
    have h1 := cellResult_isSome c ew
    have h2 := ih ew
    match hc : cellResult c ew, hr : goCells rest ew with
    | some piece, some restS => rfl
    | some piece, none => rw [hr] at h2; simp at h2
    | none, _ => rw [hc] at h1; simp at h1

/-! ### Claim C10 -/

/-- C10 (confirmed): `get_string_result` fails exactly when `base` is still
`None` (iterating `None` raises), for both `Alignment` and
`AlignmentWithEstimation`; a fresh instance has `base = None`, and after any
completed `add_string` call `base` is set, after which `get_string_result`
always returns a string. -/
theorem claim10_get_string_result :
    (∀ st : AlignmentState, st.get_string_result.isSome ↔ st.base.isSome) ∧
    (∀ ew : ℚ, (AlignmentState.init ew).base = none) ∧
    (∀ (st : AlignmentState) (inp : AInput) (w : ℚ),
      ((st.add_string inp w).base).isSome) ∧
    (∀ (σ : Type) (st : AWE σ), st.get_string_result.isSome ↔ st.base.isSome) ∧
    (∀ (σ : Type) (ew : ℚ), (AWE.init σ ew).base = none) ∧
    (∀ (σ : Type) (ops : SeqOps σ) (st : AWE σ) (inp : AInput),
      ((AWE.add_string ops st inp).base).isSome) := by
  refine ⟨?_, fun _ => rfl, ?_, ?_, fun _ _ => rfl, ?_⟩
  · intro st
    rw [AlignmentState.get_string_result]
    match hb : st.base with
    | none => simp
    | some cells => simp [goCells_isSome cells st.ew]
  · intro st inp w
    rw [AlignmentState.add_string]
    match hb : st.base with
    | none => rfl
    | some base => rfl
  · intro σ st
    rw [AWE.get_string_result]
    match hb : st.base with
    | none => simp
    | some cells => simp [goCells_isSome cells st.ew]
  · intro σ ops st inp
    rw [AWE.add_string]
    match hb : st.base with
    | none => rfl
    | some base => rfl

/-! ### Claim C9 -/

/-- The list-backed sequence structure as the pluggable
`SequenceStructure` parameter. -/
def listOps : SeqOps ListSeq := ⟨ListSeq.empty, ListSeq.insert⟩

/-- Counterexample to C9: the first (non-empty) input `"AB"` fixes the
alphabet from `s[0].vars.keys()` — the key set of the FIRST cell only — so
the stored alphabet is `"A"`, while `"B"` is a non-gap label seen in the
input sequence but missing from the alphabet. -/
theorem claim9_counterexample :
    (AWE.add_string listOps (AWE.init ListSeq 1) (.str "AB")).alphabet
      = some ['A'] ∧
    ("B" ∈ cellKeys ((convertInput (.str "AB")).getD 1 [])) ∧
    ("B" ≠ "@") ∧
    ('B' ∉ (['A'] : List Char)) := by
  refine ⟨rfl, ?_, by decide, by decide⟩
  decide

/-- C9 (amended): the alphabet starts undefined and is fixed exactly at the
first `add_string` call whose input is non-empty, to the concatenated key
set of the FIRST cell of that input (the gap label is not excluded); once
set (on any reachable state, i.e. one with a seeded base) no later
`add_string` call modifies it. -/
theorem claim9_alphabet (σ : Type) (ops : SeqOps σ) (st : AWE σ)
    (inp : AInput) :
    (∀ (b : List Cell) (a : List Char), st.base = some b →
      st.alphabet = some a →
      (AWE.add_string ops st inp).alphabet = some a) ∧
    (st.alphabet = none → (convertInput inp).isEmpty = true →
      (AWE.add_string ops st inp).alphabet = none) ∧
    (st.alphabet = none → (convertInput inp).isEmpty = false →
      (AWE.add_string ops st inp).alphabet
        = some (joinKeys ((convertInput inp).headD []))) := by
  refine ⟨?_, ?_, ?_⟩
  · intro b a hb ha
    rw [AWE.add_string]
    simp only [hb, ha]
    simp
  · intro ha he
    rw [AWE.add_string]
    match hb : st.base with
    | none =>
      simp only [ha, he]
      simp
    | some base =>
      simp only [ha, he]
      simp
  · intro ha he
    rw [AWE.add_string]
    match hb : st.base with
    | none =>
      simp only [ha, he]
      simp
    | some base =>
      simp only [ha, he]
      simp

/-- Witness for C9 (amended): a fresh instance has no alphabet; the
non-empty first input `"A"` fixes it to the first cell's keys. -/
theorem claim9_witness :
    ((AWE.init ListSeq 1).alphabet = none) ∧
    ((convertInput (.str "A")).isEmpty = false) ∧
    (AWE.add_string listOps (AWE.init ListSeq 1) (.str "A")).alphabet
      = some (joinKeys ((convertInput (.str "A")).headD [])) :=
  ⟨rfl, rfl,
    (claim9_alphabet ListSeq listOps (AWE.init ListSeq 1) (.str "A")).2.2
      rfl rfl⟩
